import Mathlib

/-!
Verification of the agent-pattern execution strategies
(`skills/agent-patterns/templates/rust/*.rs`).

Each Rust pattern file is shallowly embedded: the external completion
service (`AnthropicClient::create_message*`) and registered handlers are
modeled as explicit oracle functions returning `Except String String`
(`Ok text` / anyhow error rendered as a message); `tokio::spawn` +
`join_all` fan-out is modeled as an in-order traversal of the per-task
outcomes (spawned tasks are assumed not to panic, so the
`filter_map(|r| r.ok())` over join handles keeps every entry and
preserves submission order, which is what `join_all` guarantees);
machine integers (`usize`) are modeled as `Nat`; `f64` scores are
modeled as `ℚ` (the scores only ever flow through order comparisons);
Rust panics are modeled as explicit error / `Option.none` outcomes.
-/

namespace AgentPatterns

/-- Helper: a completion outcome is a failure. -/
def isErr (r : Except String String) : Bool :=
  match r with
  | .ok _ => false
  | .error _ => true

/-- Rust `String::len`: the UTF-8 byte length of a string. `charUtf8Size`
mirrors `char::len_utf8`. -/
def charUtf8Size (c : Char) : Nat :=
  if c.val < 0x80 then 1 else if c.val < 0x800 then 2 else if c.val < 0x10000 then 3 else 4

/-- Rust `String::len` (UTF-8 byte count). -/
def byteLen (s : String) : Nat :=
  (s.data.map charUtf8Size).sum

namespace Parallelization

/-- `parallelization.rs` `Subtask`: a named prompt for one fan-out unit. -/
structure Subtask where
  name : String
  prompt : String
deriving Repr, DecidableEq

/-- `parallelization.rs` `SubtaskResult`. The `duration` field (wall-clock
time of the spawned call) is not modeled. -/
structure SubtaskResult where
  name : String
  result : Option String
  success : Bool
  error : Option String
deriving Repr, DecidableEq

/-- `SectioningParallelizer::execute_parallel`: spawn one completion call per
subtask, join all, and collect every outcome. `client` models
`AnthropicClient::create_message` on the prompt each spawned task sends. -/
def executeParallel (client : String → Except String String) (subtasks : List Subtask) :
    List SubtaskResult :=
  subtasks.map fun subtask =>
    match client subtask.prompt with
    | .ok result =>
        { name := subtask.name, result := some result, success := true, error := none }
    | .error e =>
        { name := subtask.name, result := none, success := false, error := some e }

/-- Rust `str::trim` (both ends, whitespace). -/
def rustTrim (s : String) : String :=
  ⟨((s.data.dropWhile Char.isWhitespace).reverse.dropWhile Char.isWhitespace).reverse⟩

/-- Rust `str::parse::<usize>`: an optional leading `+` sign followed by one or
more digits. Values above `usize::MAX` make the Rust parse fail where this
model yields a large `Nat`; every caller range-checks the value against a
small option count immediately, so the two agree on every vote outcome. -/
def parseUsize (s : String) : Option Nat :=
  let l := if s.data.head? = some '+' then s.data.tail else s.data
  if l ≠ [] ∧ l.all Char.isDigit then
    some (l.foldl (fun n c => n * 10 + (c.toNat - 48)) 0)
  else none

/-- One voter task in `VotingParallelizer::vote`: take the completion outcome
(a client error becomes `None` via `.ok()?`), trim it, parse it as `usize`,
keep it iff it lies in `1..=option_count`, and shift it to a 0-based index. -/
def parseVote (optionCount : Nat) (resp : Except String String) : Option Nat :=
  match resp with
  | .error _ => none
  | .ok s =>
    match parseUsize (rustTrim s) with
    | some v => if 1 ≤ v ∧ v ≤ optionCount then some (v - 1) else none
    | none => none

/-- `parallelization.rs` `VoteCount`. -/
structure VoteCount where
  option : String
  votes : Nat
deriving Repr, DecidableEq

/-- `parallelization.rs` `VotingResult`. -/
structure VotingResult where
  winning_option : String
  winning_index : Nat
  vote_counts : List VoteCount
  total_votes : Nat
  consensus : Bool
deriving Repr, DecidableEq

/-- The `vote_counts` hash map of `VotingParallelizer::vote`, as a function:
how many valid votes chose index `i`. -/
def voteCountOf (validVotes : List Nat) (i : Nat) : Nat :=
  validVotes.count i

/-- `vote_counts.values().max().copied().unwrap_or(0)`: the largest tally over
the distinct indices that received a vote (`0` when there are no valid votes). -/
def maxVotes (validVotes : List Nat) : Nat :=
  (validVotes.dedup.map (voteCountOf validVotes)).foldl max 0

/-- `vote_counts.iter().max_by_key(...)` over the tally map, defaulting to `0`
on an empty map. The Rust `HashMap` iteration order is unspecified, so among
equally maximal indices the picked one is implementation-defined; this model
scans distinct vote values in first-vote order. Theorems about
`winning_index` are asserted only where the maximizer is unique, where every
iteration order gives the same index. `pickStep` is one scan step keyed by
the tally function `f`. -/
def pickStep (f : Nat → Nat) (acc : Option Nat) (idx : Nat) : Option Nat :=
  match acc with
  | none => some idx
  | some best => if f best < f idx then some idx else some best

/-- See the comment above: the scan over the tally map. -/
def winningIndex (validVotes : List Nat) : Nat :=
  (validVotes.dedup.foldl (pickStep (voteCountOf validVotes)) none).getD 0

/-- `VotingParallelizer::vote`, given the joined per-voter completion outcomes
(one entry per spawned voter, in submission order). -/
def vote (options : List String) (responses : List (Except String String)) : VotingResult :=
  let validVotes := responses.filterMap (parseVote options.length)
  let winIdx := winningIndex validVotes
  { winning_option := options.getD winIdx ""
    winning_index := winIdx
    vote_counts := options.enum.map fun p => ⟨p.2, voteCountOf validVotes p.1⟩
    total_votes := validVotes.length
    consensus := !validVotes.isEmpty && decide (validVotes.length / 2 < maxVotes validVotes) }

/-- `parallelization.rs` `GuardrailResult`. -/
structure GuardrailResult where
  name : String
  passed : Bool
deriving Repr, DecidableEq

/-- `parallelization.rs` `GuardrailedResult`. -/
structure GuardrailedResult where
  result : Option String
  blocked : Bool
  guardrail_results : List GuardrailResult
  blocking_guardrails : List String
deriving Repr, DecidableEq

/-- Rust `str::contains(&str)` (substring test). -/
def containsSubstr (s pat : String) : Bool :=
  decide (pat.data <:+: s.data)

/-- Rust `str::to_uppercase` restricted to ASCII case mapping, which is exact
for the `PASS`/`FAIL` protocol strings this code inspects. -/
def rustToUppercase (s : String) : String :=
  ⟨s.data.map Char.toUpper⟩

/-- One guardrail check task: the haiku completion outcome is defaulted to `""`
on error (`unwrap_or_default`), and the check passes iff the upper-cased
response contains `PASS`. The check is named `guardrail_{i}` after its index. -/
def guardrailOutcome (i : Nat) (resp : Except String String) : GuardrailResult :=
  let response := match resp with | .ok s => s | .error _ => ""
  { name := "guardrail_" ++ toString i
    passed := containsSubstr (rustToUppercase response) "PASS" }

/-- `GuardrailsParallelizer::execute_with_guardrails`: the primary task result
(`main_handle.await??` — an error propagates before any aggregation) together
with the joined guardrail-check outcomes, one per guardrail prompt in order. -/
def executeWithGuardrails (mainTask : Except String String)
    (guardrailResponses : List (Except String String)) : Except String GuardrailedResult :=
  match mainTask with
  | .error e => .error e
  | .ok main_result =>
    let guardrail_results := guardrailResponses.enum.map fun p => guardrailOutcome p.1 p.2
    let all_passed := guardrail_results.all (·.passed)
    let blocking := (guardrail_results.filter fun g => !g.passed).map (·.name)
    .ok { result := if all_passed then some main_result else none
          blocked := !all_passed
          guardrail_results := guardrail_results
          blocking_guardrails := blocking }

/-- Concrete fan-out client used to instantiate the fan-out theorem: one
prompt fails, every other prompt succeeds. -/
def demoClient : String → Except String String := fun p =>
  if p = "bad" then .error "boom" else .ok "fine"

/-- Concrete fan-out input: two subtasks, the second of which fails. -/
def demoSubtasks : List Subtask := [⟨"s1", "good"⟩, ⟨"s2", "bad"⟩]

end Parallelization

namespace EvaluatorOptimizer

/-- `evaluator_optimizer.rs` `EvaluationResult`. The `f64` scores are modeled
as `ℚ`; they only ever flow into order comparisons. `parse_evaluation_json`
never fails (missing fields keep the zero default), so an evaluation attempt
fails only when the completion client does. -/
structure EvaluationResult where
  overall_score : ℚ
  criteria_scores : List (String × ℚ)
  feedback : String
  suggestions : List String
deriving Repr, DecidableEq

/-- `evaluator_optimizer.rs` `IterationRecord`. -/
structure IterationRecord where
  iteration : Nat
  output : String
  evaluation : EvaluationResult
deriving Repr, DecidableEq

/-- `evaluator_optimizer.rs` `OptimizationResult`. -/
structure OptimizationResult where
  final_output : String
  final_score : ℚ
  iterations : Nat
  met_threshold : Bool
  history : List IterationRecord
deriving Repr, DecidableEq

/-- Failure modes of `EvaluatorOptimizer::optimize`: a propagated completion
client error (`?`), or a Rust panic (`.unwrap()` of `None`). -/
inductive OptError
  | clientError (msg : String)
  | panicked
deriving Repr, DecidableEq

/-- Rust `Iterator::max_by` keyed by `f` with a total order (the scores here
are parsed from `[0-9.]+` matches, never `NaN`, so `partial_cmp().unwrap()`
is total): among several equally maximal elements the LAST one is returned. -/
def rustMaxBy {α : Type} (f : α → ℚ) : List α → Option α
  | [] => none
  | x :: xs => some (xs.foldl (fun best y => if f y < f best then best else y) x)

/-- The `for i in 0..max_iterations` loop of `EvaluatorOptimizer::optimize`.
`gen` models `Self::generate` (task, previous output, previous evaluation —
prompt construction plus the completion call) and `eval` models
`Self::evaluate` (prompt, completion call, `parse_evaluation_json`).
`rem` counts the remaining loop iterations (`rem = max_iterations - i`);
when the budget is exhausted the best record is taken by
`history.iter().max_by(..).unwrap()`, whose `None` case is the panic. -/
def optimizeGo (gen : String → String → Option EvaluationResult → Except String String)
    (evalF : String → Except String EvaluationResult) (task : String)
    (scoreThreshold : ℚ) (maxIterations : Nat)
    (rem : Nat) (i : Nat) (currentOutput : String) (lastEvaluation : Option EvaluationResult)
    (history : List IterationRecord) : Except OptError OptimizationResult :=
  if _h : rem = 0 then
    match rustMaxBy (fun r => r.evaluation.overall_score) history with
    | some best =>
      .ok { final_output := best.output
            final_score := best.evaluation.overall_score
            iterations := maxIterations
            met_threshold := false
            history := history }
    | none => .error .panicked
  else
    match gen task currentOutput lastEvaluation with
    | .error e => .error (.clientError e)
    | .ok output =>
      match evalF output with
      | .error e => .error (.clientError e)
      | .ok evaluation =>
        let history' := history ++ [⟨i + 1, output, evaluation⟩]
        if scoreThreshold ≤ evaluation.overall_score then
          .ok { final_output := output
                final_score := evaluation.overall_score
                iterations := i + 1
                met_threshold := true
                history := history' }
        else
          optimizeGo gen evalF task scoreThreshold maxIterations (rem - 1) (i + 1) output
            (some evaluation) history'
termination_by rem
decreasing_by omega

/-- `EvaluatorOptimizer::optimize`: the history is cleared on entry, the
current output starts empty and the last evaluation absent. -/
def optimize (gen : String → String → Option EvaluationResult → Except String String)
    (evalF : String → Except String EvaluationResult) (task : String)
    (maxIterations : Nat) (scoreThreshold : ℚ) : Except OptError OptimizationResult :=
  optimizeGo gen evalF task scoreThreshold maxIterations maxIterations 0 "" none []

/-- Concrete generator for the C8 example run: each refinement appends one
character, so iteration outputs are "x", "xx", "xxx", ... -/
def exGen : String → String → Option EvaluationResult → Except String String :=
  fun _task prev _lastEval => .ok (prev ++ "x")

/-- Concrete deterministic evaluator for the C8 example run: scores the
successive outputs 0.5, 0.7, then 0.9. -/
def exEval : String → Except String EvaluationResult :=
  fun out =>
    .ok { overall_score := if out = "x" then 1/2 else if out = "xx" then 7/10 else 9/10
          criteria_scores := []
          feedback := ""
          suggestions := [] }

/-- Concrete generator for the C2 tie run: output "A" on the first iteration
and "B" on every later one. -/
def tieGen : String → String → Option EvaluationResult → Except String String :=
  fun _task prev _lastEval => .ok (if prev = "" then "A" else "B")

/-- Concrete evaluator for the C2 tie run: every output scores 0.5. -/
def tieEval : String → Except String EvaluationResult :=
  fun _out => .ok { overall_score := 1/2, criteria_scores := [], feedback := "", suggestions := [] }

/-- The result of the example run `optimize exGen exEval "t" 5 0.85`. -/
def exRun : OptimizationResult :=
  ⟨"xxx", 9/10, 3, true,
    [⟨1, "x", ⟨1/2, [], "", []⟩⟩, ⟨2, "xx", ⟨7/10, [], "", []⟩⟩, ⟨3, "xxx", ⟨9/10, [], "", []⟩⟩]⟩

/-- The result of the tie run `optimize tieGen tieEval "t" 2 1`: both
iterations score 0.5, and the returned output is the second iteration's. -/
def tieRun : OptimizationResult :=
  ⟨"B", 1/2, 2, false, [⟨1, "A", ⟨1/2, [], "", []⟩⟩, ⟨2, "B", ⟨1/2, [], "", []⟩⟩]⟩

end EvaluatorOptimizer

namespace PromptChaining

/-- `prompt_chaining.rs` `ChainStep`. The context (`HashMap<String, String>`)
is modeled as a lookup function. -/
structure ChainStep where
  name : String
  prompt_template : (String → Option String) → String
  validator : Option (String → Bool)
  processor : Option (String → String)

/-- `prompt_chaining.rs` `ChainHistory`. -/
structure ChainHistory where
  step : String
  prompt : String
  output : String
deriving Repr, DecidableEq

/-- Ways one `PromptChain::execute` call can fail: a client error wrapped
with `Failed to execute step: {name}` context, the
`Step '{name}' validation failed. Output: {preview}` bail, or the Rust
panic raised by the byte slice `&output[..min(len, 100)]` when that index is
not a character boundary. -/
inductive ChainError
  | clientError (step : String) (msg : String)
  | validationFailed (step : String) (preview : String)
  | panicked
deriving Repr, DecidableEq

/-- One full invocation: the outcome, the history entries pushed, and the
`(step name, prompt)` of every completion call made, in order. -/
structure ChainRun where
  outcome : Except ChainError String
  history : List ChainHistory
  calls : List (String × String)

/-- `HashMap::insert` on the context. -/
def ctxInsert (ctx : String → Option String) (k v : String) : String → Option String :=
  fun x => if x = k then some v else ctx x

/-- Rust byte slicing `&s[..n]` on the UTF-8 encoding: `some` prefix when
byte index `n` is a character boundary, `none` (panic) otherwise. -/
def takeBytes (l : List Char) (n : Nat) : Option (List Char) :=
  if n = 0 then some []
  else
    match l with
    | [] => none
    | c :: cs =>
      if charUtf8Size c ≤ n then (takeBytes cs (n - charUtf8Size c)).map (c :: ·) else none

/-- The truncated preview `&current_output[..current_output.len().min(100)]`
used in the validation-failure message; `none` models the slice panic. -/
def slicePreview (s : String) : Option String :=
  (takeBytes s.data (min (byteLen s) 100)).map fun l => ⟨l⟩

/-- The step loop of `PromptChain::execute`: build the prompt from the
context, call the client (an error fails the chain naming the step), run the
validator (a `false` bails with the truncated preview — or panics when the
byte-100 cut is not a character boundary), apply the processor, merge the
processed output into the context under the step name, push history, and
continue; the last step's raw output is returned. -/
def executeGo (client : String → Except String String) :
    List ChainStep → (String → Option String) → String → List ChainHistory →
    List (String × String) → ChainRun
  | [], _ctx, currentOutput, history, calls => ⟨.ok currentOutput, history, calls⟩
  | step :: rest, ctx, _cur, history, calls =>
    let prompt := step.prompt_template ctx
    let calls' := calls ++ [(step.name, prompt)]
    match client prompt with
    | .error e => ⟨.error (.clientError step.name e), history, calls'⟩
    | .ok current_output =>
      let validated :=
        match step.validator with
        | some validator => validator current_output
        | none => true
      if validated then
        let processed :=
          match step.processor with
          | some processor => processor current_output
          | none => current_output
        executeGo client rest (ctxInsert ctx step.name processed) current_output
          (history ++ [⟨step.name, prompt, current_output⟩]) calls'
      else
        match slicePreview current_output with
        | some preview => ⟨.error (.validationFailed step.name preview), history, calls'⟩
        | none => ⟨.error .panicked, history, calls'⟩

/-- `PromptChain::execute` with an initial context. -/
def execute (client : String → Except String String) (steps : List ChainStep)
    (context : String → Option String) : ChainRun :=
  executeGo client steps context "" [] []

/-- A 101-byte output whose byte index 100 falls inside the final two-byte
character: 99 ASCII `a`s followed by `é`. -/
def cxOutput : String := ⟨List.replicate 99 'a' ++ ['é']⟩

/-- A step whose validator always rejects. -/
def alwaysFalseStep : ChainStep :=
  { name := "s1", prompt_template := fun _ => "p1"
    validator := some fun _ => false, processor := none }

/-- A second step that should never run after a failure. -/
def nextStep : ChainStep :=
  { name := "s2", prompt_template := fun _ => "p2", validator := none, processor := none }

/-- A client that always returns the boundary-breaking output. -/
def cxClient : String → Except String String := fun _ => .ok cxOutput

/-- A client that always fails. -/
def errClient : String → Except String String := fun _ => .error "down"

/-- The step name carried by a chain failure, when any: the slice panic
aborts before the `bail!` message naming the step is ever built. -/
def namesStep (e : ChainError) : Option String :=
  match e with
  | .clientError step _ => some step
  | .validationFailed step _ => some step
  | .panicked => none

/-- The step name named by a run's failure outcome, if any. -/
def outcomeStepName (r : ChainRun) : Option String :=
  match r.outcome with
  | .error e => namesStep e
  | .ok _ => none

end PromptChaining

namespace AutonomousAgent

/-- `autonomous_agent.rs` `AgentAction`, the serde target of a parsed
response. Structured JSON argument values (`serde_json::Value`) are
abstracted as strings; the agent core never inspects them. -/
structure AgentAction where
  thought : Option String
  action : Option String
  args : Option (List (String × String))
  result : Option String
deriving Repr, DecidableEq

/-- One completion response as the agent sees it after `clean_json` +
`serde_json::from_str::<AgentAction>`: either a parsed action object (with
the raw text kept, since the raw text is pushed to the conversation and is
the completion fallback result) or a non-JSON text response. The JSON
extraction itself is external parsing and belongs to the environment. -/
inductive LLMResponse
  | action (raw : String) (a : AgentAction)
  | text (raw : String)
deriving Repr, DecidableEq

/-- A response announcing completion: a parsed action with
`action = Some("complete")`. -/
def IsCompleteResp : LLMResponse → Prop
  | .action _ a => a.action = some "complete"
  | .text _ => False

/-- `autonomous_agent.rs` `ActionRecord`. -/
structure ActionRecord where
  step : Nat
  action_type : String
  tool_name : Option String
  tool_args : Option (List (String × String))
  tool_result : Option String
  thought : Option String
deriving Repr, DecidableEq

/-- `autonomous_agent.rs` `AgentState`. -/
structure AgentState where
  total_steps : Nat
  tool_calls : Nat
  action_history : List ActionRecord
  is_complete : Bool
  final_result : Option String
deriving Repr, DecidableEq

/-- `AgentState::default()`. -/
def initState : AgentState := ⟨0, 0, [], false, none⟩

/-- A conversation turn (`MessageContent`). -/
structure Message where
  role : String
  content : String
deriving Repr, DecidableEq

/-- A registered tool: its name and handler. The description and parameter
schema only feed the system prompt, which is part of the opaque completion
environment. -/
structure AgentTool where
  name : String
  handler : List (String × String) → Except String String

/-- `self.tools.get(name)` on the registration `HashMap` (later registration
of the same name overwrites). -/
def toolsFind (tools : List AgentTool) (name : String) : Option AgentTool :=
  tools.reverse.find? fun t => t.name == name

/-- `self.tools.keys().join(", ")` for the unknown-action hint (the Rust
`HashMap` key order is unspecified; registration order is used here — the
string only flows into a conversation turn, never into control flow). -/
def toolNames (tools : List AgentTool) : String :=
  String.intercalate ", " (tools.map (·.name))

/-- Rust `response.chars().take(n).collect()`. -/
def takeChars (s : String) (n : Nat) : String := ⟨s.data.take n⟩

/-- `AutonomousAgent::process_response`: record the thought, end the run on
`action = "complete"` (falling back to the raw response as the result),
invoke a matching tool (tool errors become an `Error: ...` text result) and
extend the conversation, hint on an unknown action, or treat a non-JSON
response as text and ask for a reformat. Returns the updated state and
conversation. -/
def processResponse (tools : List AgentTool) (st : AgentState) (conv : List Message) :
    LLMResponse → AgentState × List Message
  | .action raw a =>
    let st1 :=
      match a.thought with
      | some t =>
        { st with action_history := st.action_history ++
            [⟨st.total_steps, "thought", none, none, none, some t⟩] }
      | none => st
    if a.action = some "complete" then
      ({ st1 with is_complete := true, final_result := a.result.orElse fun _ => some raw }, conv)
    else
      match a.action with
      | some action_name =>
        match toolsFind tools action_name with
        | some tool =>
          let args := a.args.getD []
          let tool_result :=
            match tool.handler args with
            | .ok result => result
            | .error e => "Error: " ++ e
          ({ st1 with
              tool_calls := st1.tool_calls + 1
              action_history := st1.action_history ++
                [⟨st1.total_steps, "tool_call", some action_name, some args,
                  some tool_result, none⟩] },
           conv ++ [⟨"assistant", raw⟩, ⟨"user", "Tool result: " ++ tool_result⟩])
        | none =>
          (st1, conv ++ [⟨"assistant", raw⟩,
            ⟨"user", "Unknown action: " ++ action_name ++ ". Available tools: " ++
              toolNames tools⟩])
      | none => (st1, conv)
  | .text raw =>
    ({ st with action_history := st.action_history ++
        [⟨st.total_steps, "text_response", none, none, none, some (takeChars raw 200)⟩] },
     conv ++ [⟨"assistant", raw⟩,
       ⟨"user", "Please respond with a JSON action or mark the task as complete."⟩])

/-- `autonomous_agent.rs` `AgentResult`. -/
structure AgentResult where
  success : Bool
  final_result : String
  total_steps : Nat
  tool_calls : Nat
  action_history : List ActionRecord
deriving Repr, DecidableEq

/-- The `while self.state.total_steps < max_steps && !self.state.is_complete`
loop of `run_with_stop`: bump the step counter, consult the stop predicate
(before consuming a completion call), call the completion service (`client`
maps the index of the call to its outcome; an error propagates), and process
the response. `rem` is `max_steps - total_steps`. -/
def runGo (tools : List AgentTool) (client : Nat → Except String LLMResponse)
    (shouldStop : AgentState → Bool) :
    Nat → AgentState → List Message → Nat → Except String AgentState
  | 0, st, _conv, _calls => .ok st
  | rem + 1, st, conv, calls =>
    if st.is_complete then .ok st
    else
      let st1 := { st with total_steps := st.total_steps + 1 }
      if shouldStop st1 then .ok st1
      else
        match client calls with
        | .error e => .error e
        | .ok resp =>
          let next := processResponse tools st1 conv resp
          runGo tools client shouldStop rem next.1 next.2 (calls + 1)

/-- `AutonomousAgent::run_with_stop`: reset the state and the conversation,
push the initial task turn, run the loop, and report, with the step-budget
message as the fallback result. -/
def run_with_stop (tools : List AgentTool) (client : Nat → Except String LLMResponse)
    (task : String) (maxSteps : Nat) (shouldStop : AgentState → Bool) :
    Except String AgentResult :=
  match runGo tools client shouldStop maxSteps initState [⟨"user", "Task: " ++ task⟩] 0 with
  | .error e => .error e
  | .ok st =>
    .ok { success := st.is_complete
          final_result := st.final_result.getD "Task not completed within step limit"
          total_steps := st.total_steps
          tool_calls := st.tool_calls
          action_history := st.action_history }

/-- `AutonomousAgent::run`: `run_with_stop` with the constant-false
predicate. -/
def run (tools : List AgentTool) (client : Nat → Except String LLMResponse)
    (task : String) (maxSteps : Nat) : Except String AgentResult :=
  run_with_stop tools client task maxSteps fun _ => false

/-- A client that immediately announces completion with result "done". -/
def doneClient : Nat → Except String LLMResponse :=
  fun _ => .ok (.action "raw" ⟨none, some "complete", none, some "done"⟩)

/-- A client that always replies with non-JSON text. -/
def chatterClient : Nat → Except String LLMResponse :=
  fun _ => .ok (.text "hi")

end AutonomousAgent

namespace OrchestratorWorkers

/-- `orchestrator_workers.rs` `Subtask`. -/
structure Subtask where
  id : String
  description : String
  worker_type : String
  dependencies : List String
deriving Repr, DecidableEq

/-- `orchestrator_workers.rs` `WorkerResult`. -/
structure WorkerResult where
  subtask_id : String
  result : Option String
  success : Bool
  error : Option String
deriving Repr, DecidableEq

/-- `orchestrator_workers.rs` `OrchestratorResult`. -/
structure OrchestratorResult where
  final_result : String
  subtasks : List Subtask
  worker_results : List WorkerResult
deriving Repr, DecidableEq

/-- Failures of `Orchestrator::topological_sort`: the
`Circular dependency detected: {id}` bail carrying the offending id, or the
fuel marker of this embedding (`visit_ne_fuelExhausted` proves the fuel
chosen by `topologicalSort` never runs out, so the marker is unreachable
there and the Rust recursion, which carries no fuel, is modeled faithfully). -/
inductive SortError
  | circular (id : String)
  | fuelExhausted
deriving Repr, DecidableEq

/-- Failures of `Orchestrator::execute` after decomposition: a sort failure,
or a completion-client failure in the synthesis call. -/
inductive OrchError
  | sortFailed (e : SortError)
  | clientError (msg : String)
deriving Repr, DecidableEq

/-- The mutable state of the `visit` closure in
`Orchestrator::topological_sort`: the `visited` and `visiting` hash sets and
the `result` vector. -/
structure VisitState where
  visited : List String
  visiting : List String
  result : List Subtask
deriving Repr, DecidableEq

/-- The `task_map` lookup: `subtasks.iter().map(|s| (s.id.clone(), s)).collect()`
into a `HashMap` keeps the LAST subtask for each duplicated id. -/
def taskMapFind (subtasks : List Subtask) (id : String) : Option Subtask :=
  subtasks.reverse.find? fun s => s.id == id

/-- The `for dep in &subtask.dependencies { visit(dep, ..)? }` loop: visit
each listed id in order, stopping at the first error. -/
def visitDeps (f : String → VisitState → Except SortError VisitState) :
    List String → VisitState → Except SortError VisitState
  | [], st => .ok st
  | d :: ds, st =>
    match f d st with
    | .error e => .error e
    | .ok st' => visitDeps f ds st'

/-- The recursive `visit` of `Orchestrator::topological_sort`: a visited id
returns at once; an id already being visited is a circular-dependency
failure; otherwise the id is marked as being visited, the mapped subtask's
dependencies (if the id is in the map) are visited first and the subtask is
then pushed onto the result, and finally the id moves from `visiting` to
`visited`. `fuel` bounds the recursion depth of this embedding only. -/
def visit (tm : String → Option Subtask) : Nat → String → VisitState → Except SortError VisitState
  | 0, _, _ => .error .fuelExhausted
  | fuel + 1, id, st =>
    if id ∈ st.visited then .ok st
    else if id ∈ st.visiting then .error (.circular id)
    else
      let st1 : VisitState := { st with visiting := id :: st.visiting }
      match
        ((match tm id with
          | some s =>
            match visitDeps (visit tm fuel) s.dependencies st1 with
            | .error e => .error e
            | .ok st2 => .ok { st2 with result := st2.result ++ [s] }
          | none => .ok st1) : Except SortError VisitState) with
      | .error e => .error e
      | .ok st2 => .ok { st2 with visited := id :: st2.visited, visiting := st2.visiting.erase id }

/-- Every id mentioned anywhere in the input: subtask ids and dependency
ids. The recursion depth of `visit` is bounded by the number of distinct
such ids, since `visiting` grows by one fresh member per nesting level. -/
def idUniverse (subtasks : List Subtask) : List String :=
  subtasks.map (·.id) ++ (subtasks.map (·.dependencies)).flatten

/-- Ample fuel for `visit`: more than the total number of ids mentioned. -/
def sortFuel (subtasks : List Subtask) : Nat :=
  (idUniverse subtasks).length + 1

/-- `Orchestrator::topological_sort`: visit every subtask id in list order
against empty `visited`/`visiting` sets and return the accumulated result. -/
def topologicalSort (subtasks : List Subtask) : Except SortError (List Subtask) :=
  match visitDeps (visit (taskMapFind subtasks) (sortFuel subtasks)) (subtasks.map (·.id))
      ⟨[], [], []⟩ with
  | .error e => .error e
  | .ok st => .ok st.result

/-- Lookup in the `results: HashMap<String, String>` accumulator, modeled as
an insertion list with later inserts overwriting. -/
def lookupResult (results : List (String × String)) (d : String) : Option String :=
  (results.reverse.find? fun p => p.1 == d).map (·.2)

/-- The worker loop of `Orchestrator::execute` over the sorted subtasks:
gather the dependency results that exist, invoke the worker (`workerRun`
models `Worker::execute` of the registered worker for the subtask's
`worker_type`, or of the default `LLMWorker` built for it when none is
registered), record success or failure per node (one node's failure does not
halt the loop), and log each worker invocation by subtask id. -/
def runWorkers (workerRun : Subtask → List (String × String) → Except String String) :
    List Subtask → List (String × String) → List WorkerResult → List String →
    List (String × String) × List WorkerResult × List String
  | [], results, acc, log => (results, acc, log)
  | subtask :: rest, results, acc, log =>
    let dep_results := subtask.dependencies.filterMap fun d =>
      (lookupResult results d).map fun r => (d, r)
    let log' := log ++ [subtask.id]
    match workerRun subtask dep_results with
    | .ok result =>
      runWorkers workerRun rest (results ++ [(subtask.id, result)])
        (acc ++ [⟨subtask.id, some result, true, none⟩]) log'
    | .error e =>
      runWorkers workerRun rest results (acc ++ [⟨subtask.id, none, false, some e⟩]) log'

/-- Steps 2 and 3 of `Orchestrator::execute`, after `decompose_task` has
produced the subtask list (decomposition is a completion call plus external
JSON parsing, part of the environment): topologically sort, run the workers
in that order, and synthesize (`synth` models the final completion call over
the original task and the collected results). The second component is the
ordered log of worker invocations by subtask id. -/
def executeSubtasks (workerRun : Subtask → List (String × String) → Except String String)
    (synth : String → List (String × String) → Except String String)
    (task : String) (subtasks : List Subtask) :
    Except OrchError OrchestratorResult × List String :=
  match topologicalSort subtasks with
  | .error e => (.error (.sortFailed e), [])
  | .ok sorted =>
    let rw := runWorkers workerRun sorted [] [] []
    match synth task rw.1 with
    | .error e => (.error (.clientError e), rw.2.2)
    | .ok final_result =>
      (.ok { final_result := final_result, subtasks := subtasks, worker_results := rw.2.1 },
       rw.2.2)

/-- The dependency graph of the (task-map of the) subtask list: one or more
dependency edges from an id to another. -/
inductive DepPath (subtasks : List Subtask) : String → String → Prop
  | single {a d : String} {s : Subtask} :
      taskMapFind subtasks a = some s → d ∈ s.dependencies → DepPath subtasks a d
  | cons {a b c : String} {s : Subtask} :
      taskMapFind subtasks a = some s → b ∈ s.dependencies → DepPath subtasks b c →
      DepPath subtasks a c

/-- One dependency edge of the task map: `d` is a declared dependency of
the mapped subtask of `a`. -/
def DepEdge (subtasks : List Subtask) (a d : String) : Prop :=
  ∃ s, taskMapFind subtasks a = some s ∧ d ∈ s.dependencies

/-- The shape of the `visiting` stack during the sort: each entry is a
declared dependency of the entry pushed just before it. -/
inductive ChainStack (subtasks : List Subtask) : List String → Prop
  | nil : ChainStack subtasks []
  | single (a : String) : ChainStack subtasks [a]
  | cons {a b : String} {rest : List String} :
      DepEdge subtasks b a → ChainStack subtasks (b :: rest) →
      ChainStack subtasks (a :: b :: rest)

/-- The claim's well-formedness: every dependency id appears in the list. -/
def WellFormed (subtasks : List Subtask) : Prop :=
  ∀ s ∈ subtasks, ∀ d ∈ s.dependencies, ∃ t ∈ subtasks, t.id = d

/-- Every node of the order comes after all of its declared dependencies. -/
def DepOrdered (sorted : List Subtask) : Prop :=
  ∀ (i : Nat) (hi : i < sorted.length), ∀ d ∈ (sorted.get ⟨i, hi⟩).dependencies,
    ∃ (j : Nat) (hj : j < sorted.length), j < i ∧ (sorted.get ⟨j, hj⟩).id = d

/-- The invariant maintained by `visit` over a task map `tm` in which every
binding maps an id to a subtask carrying that id: every result entry is the
map's value for its own id, every visited map key has its value somewhere in
the result, and every result entry is preceded by entries for all of its
mapped dependencies. -/
def TMInv (tm : String → Option Subtask) (st : VisitState) : Prop :=
  (∀ t ∈ st.result, tm t.id = some t) ∧
  (∀ id ∈ st.visited, ∀ s, tm id = some s →
    ∃ (k : Nat) (hk : k < st.result.length), st.result.get ⟨k, hk⟩ = s) ∧
  (∀ (k : Nat) (hk : k < st.result.length), ∀ d ∈ (st.result.get ⟨k, hk⟩).dependencies,
    (tm d).isSome → ∃ (j : Nat) (hj : j < st.result.length), j < k ∧
      (st.result.get ⟨j, hj⟩).id = d)

/-- Index of the first occurrence of an id in a list (length when absent);
used only to refute topological orders over cyclic graphs. -/
def idxOf : List String → String → Nat
  | [], _ => 0
  | x :: xs, a => if x = a then 0 else idxOf xs a + 1

/-- Concrete acyclic input: `b` depends on `a`. -/
def demoA : List Subtask := [⟨"a", "first", "w", []⟩, ⟨"b", "second", "w", ["a"]⟩]

/-- A rank function witnessing that `demoA` is acyclic. -/
def demoRank : String → Nat := fun id => if id = "a" then 0 else 1

/-- Concrete cyclic input: `x` and `y` depend on each other. -/
def demoC : List Subtask := [⟨"x", "one", "w", ["y"]⟩, ⟨"y", "two", "w", ["x"]⟩]

/-- A trivial worker oracle for the witness. -/
def demoWorker : Subtask → List (String × String) → Except String String :=
  fun _ _ => .ok "done"

/-- A trivial synthesis oracle for the witness. -/
def demoSynth : String → List (String × String) → Except String String :=
  fun _ _ => .ok "final"

end OrchestratorWorkers

end AgentPatterns

namespace AgentPatterns

namespace Parallelization

/-- Accumulator `a` is dominated by the fold of `max` over a list. -/
theorem le_foldl_max (L : List Nat) (a : Nat) : a ≤ L.foldl max a := by
  induction L generalizing a with
  | nil => exact le_refl a
  | cons x L ih => exact le_trans (le_max_left a x) (ih (max a x))

/-- Every member of a list is dominated by the fold of `max` over it. -/
theorem mem_le_foldl_max (L : List Nat) (a : Nat) : ∀ y ∈ L, y ≤ L.foldl max a := by
  induction L generalizing a with
  | nil => intro y hy; exact absurd hy (List.not_mem_nil y)
  | cons x L ih =>
    intro y hy
    rcases List.mem_cons.mp hy with h | h
    · subst h; exact le_trans (le_max_right a y) (le_foldl_max L (max a y))
    · exact ih (max a x) y h

/-- The fold of `max` is either the accumulator or a member of the list. -/
theorem foldl_max_mem (L : List Nat) (a : Nat) :
    L.foldl max a = a ∨ L.foldl max a ∈ L := by
  induction L generalizing a with
  | nil => exact Or.inl rfl
  | cons x L ih =>
    rcases ih (max a x) with h | h
    · rcases max_choice a x with hc | hc
      · exact Or.inl (by rw [List.foldl_cons, h, hc])
      · exact Or.inr (by rw [List.foldl_cons, h, hc]; exact List.mem_cons_self x L)
    · exact Or.inr (List.mem_cons_of_mem x h)

/-- The `max_by_key` scan of `winningIndex` started on `some b₀` lands on an
element that dominates the accumulator and every scanned element. -/
theorem pickMax_go (f : Nat → Nat) (d : List Nat) :
    ∀ b₀ : Nat,
      ∃ b, d.foldl (pickStep f) (some b₀) = some b ∧
        (b = b₀ ∨ b ∈ d) ∧ f b₀ ≤ f b ∧ ∀ x ∈ d, f x ≤ f b := by
  induction d with
  | nil =>
    intro b₀
    exact ⟨b₀, rfl, Or.inl rfl, le_refl _, by intro x hx; exact absurd hx (List.not_mem_nil x)⟩
  | cons x d ih =>
    intro b₀
    by_cases hx : f b₀ < f x
    · obtain ⟨b, hfold, hmem, hle, hall⟩ := ih x
      refine ⟨b, by simpa [pickStep, hx] using hfold, ?_, le_trans (le_of_lt hx) hle, ?_⟩
      · rcases hmem with h | h
        · exact Or.inr (h ▸ List.mem_cons_self x d)
        · exact Or.inr (List.mem_cons_of_mem x h)
      · intro y hy
        rcases List.mem_cons.mp hy with h | h
        · exact h ▸ hle
        · exact hall y h
    · obtain ⟨b, hfold, hmem, hle, hall⟩ := ih b₀
      refine ⟨b, by simpa [pickStep, hx] using hfold, ?_, hle, ?_⟩
      · rcases hmem with h | h
        · exact Or.inl h
        · exact Or.inr (List.mem_cons_of_mem x h)
      · intro y hy
        rcases List.mem_cons.mp hy with h | h
        · exact h ▸ le_trans (not_lt.mp hx) hle
        · exact hall y h

/-- The tally of the winning index equals `max_votes`. -/
theorem winningIndex_count_eq_maxVotes (vv : List Nat) :
    voteCountOf vv (winningIndex vv) = maxVotes vv := by
  rcases hd : vv.dedup with _ | ⟨b₀, d⟩
  · have hvv : vv = [] := (List.dedup_eq_nil vv).mp hd
    subst hvv
    simp [winningIndex, maxVotes, voteCountOf]
  · obtain ⟨b, hfold, hmem, hle, hall⟩ := pickMax_go (voteCountOf vv) d b₀
    have hwin : winningIndex vv = b := by
      unfold winningIndex
      rw [hd, List.foldl_cons]
      have hstep : pickStep (voteCountOf vv) none b₀ = some b₀ := rfl
      rw [hstep, hfold]
      rfl
    have hbmem : b ∈ vv.dedup := by
      rw [hd]
      rcases hmem with h | h
      · exact h ▸ List.mem_cons_self b₀ d
      · exact List.mem_cons_of_mem b₀ h
    have hble : voteCountOf vv b ≤ maxVotes vv :=
      mem_le_foldl_max _ 0 _ (List.mem_map_of_mem (voteCountOf vv) hbmem)
    have hge : maxVotes vv ≤ voteCountOf vv b := by
      rcases foldl_max_mem ((vv.dedup.map (voteCountOf vv))) 0 with h | h
      · unfold maxVotes
        rw [h]
        exact Nat.zero_le _
      · obtain ⟨x, hxmem, hx⟩ := List.mem_map.mp h
        rw [hd] at hxmem
        unfold maxVotes
        rw [← hx]
        rcases List.mem_cons.mp hxmem with h' | h'
        · exact h' ▸ hle
        · exact hall x h'
    exact hwin ▸ le_antisymm hble hge

/-- Every tally is dominated by `max_votes`. -/
theorem voteCount_le_maxVotes (vv : List Nat) (i : Nat) :
    voteCountOf vv i ≤ maxVotes vv := by
  by_cases h : i ∈ vv
  · exact mem_le_foldl_max _ 0 _ (List.mem_map_of_mem _ (List.mem_dedup.mpr h))
  · unfold voteCountOf
    rw [List.count_eq_zero_of_not_mem h]
    exact Nat.zero_le _

/-- C3: `VotingParallelizer::vote` discards responses that do not parse as a
1-based option index in range, tallies the remaining valid votes, and reports
`consensus = true` iff the winning option's tally strictly exceeds half of the
valid votes cast; on valid votes `[1,1,2]` over two options the winner is
index 0 (uniquely maximal, so under any `HashMap` iteration order) with
consensus, and on `[1,2]` there is no consensus. -/
theorem vote_consensus_iff_strict_majority :
    (∀ (options : List String) (responses : List (Except String String)),
      (vote options responses).total_votes =
        (responses.filterMap (parseVote options.length)).length ∧
      (∀ i, voteCountOf (responses.filterMap (parseVote options.length)) i ≤
          voteCountOf (responses.filterMap (parseVote options.length))
            ((vote options responses).winning_index)) ∧
      ((vote options responses).consensus = true ↔
        (vote options responses).total_votes <
          2 * voteCountOf (responses.filterMap (parseVote options.length))
            ((vote options responses).winning_index))) ∧
    (vote ["o1", "o2"] [.ok "1", .ok "1", .ok "2"]).winning_index = 0 ∧
    (vote ["o1", "o2"] [.ok "1", .ok "1", .ok "2"]).consensus = true ∧
    (∀ i, i ≠ 0 → voteCountOf [0, 0, 1] i < voteCountOf [0, 0, 1] 0) ∧
    (vote ["o1", "o2"] [.ok "1", .ok "2"]).consensus = false := by
  refine ⟨?_, by decide, by decide, ?_, by decide⟩
  · intro options responses
    set vv := responses.filterMap (parseVote options.length) with hvv
    have ht : (vote options responses).total_votes = vv.length := by
      simp [vote, hvv]
    have hw : (vote options responses).winning_index = winningIndex vv := by
      simp [vote, hvv]
    have hc : (vote options responses).consensus =
        (!vv.isEmpty && decide (vv.length / 2 < maxVotes vv)) := by
      simp [vote, hvv]
    refine ⟨ht, ?_, ?_⟩
    · intro i
      rw [hw, winningIndex_count_eq_maxVotes]
      exact voteCount_le_maxVotes vv i
    · rw [hc, ht, hw, winningIndex_count_eq_maxVotes]
      by_cases he : vv = []
      · simp [he, maxVotes]
      · have hne : vv.isEmpty = false := by
          simpa [List.isEmpty_iff] using he
        simp only [hne, Bool.not_false, Bool.true_and, decide_eq_true_eq]
        omega
  · intro i hi
    rcases eq_or_ne i 1 with h1 | h1
    · subst h1; decide
    · have hmem : i ∉ ([0, 0, 1] : List Nat) := by
        simp only [List.mem_cons, List.not_mem_nil, or_false]
        push_neg
        exact ⟨hi, hi, h1⟩
      have hz : voteCountOf [0, 0, 1] i = 0 := by
        unfold voteCountOf
        exact List.count_eq_zero_of_not_mem hmem
      rw [hz]
      decide

/-- Closed instance of `vote_consensus_iff_strict_majority`. -/
theorem vote_consensus_iff_strict_majority_witness :
    voteCountOf [0, 0, 1] 5 < voteCountOf [0, 0, 1] 0 :=
  vote_consensus_iff_strict_majority.2.2.2.1 5 (by decide)

/-- C7: the fan-out executor returns one outcome per submitted subtask, in
submission order, with exactly the client-failing subtasks marked failed
(`result = None`, an error message) and the rest marked succeeded. -/
theorem executeParallel_cons (client : String → Except String String) (t : Subtask)
    (ts : List Subtask) :
    executeParallel client (t :: ts) =
      (match client t.prompt with
       | .ok result => ⟨t.name, some result, true, none⟩
       | .error e => ⟨t.name, none, false, some e⟩) :: executeParallel client ts := rfl

theorem executeParallel_outcome_counts :
    ∀ (client : String → Except String String) (subtasks : List Subtask),
      (executeParallel client subtasks).length = subtasks.length ∧
      (executeParallel client subtasks).map (·.name) = subtasks.map (·.name) ∧
      ((executeParallel client subtasks).filter fun r => !r.success).length =
        (subtasks.filter fun t => isErr (client t.prompt)).length ∧
      ((executeParallel client subtasks).filter fun r => r.success).length =
        subtasks.length - (subtasks.filter fun t => isErr (client t.prompt)).length ∧
      ∀ r ∈ executeParallel client subtasks,
        (r.success = false → r.result = none ∧ r.error.isSome = true) ∧
        (r.success = true → r.result.isSome = true ∧ r.error = none) := by
  intro client subtasks
  induction subtasks with
  | nil => simp [executeParallel]
  | cons t ts ih =>
    obtain ⟨ih1, ih2, ih3, ih4, ih5⟩ := ih
    have hKle : (ts.filter fun t => isErr (client t.prompt)).length ≤ ts.length :=
      List.length_filter_le _ ts
    cases hct : client t.prompt with
    | ok v =>
      have hpt : (isErr (client t.prompt)) = false := by rw [hct]; rfl
      rw [executeParallel_cons, hct]
      refine ⟨by simp [ih1], by simp [ih2], ?_, ?_, ?_⟩
      · rw [List.filter_cons, List.filter_cons]
        simp [hpt, ih3]
      · rw [List.filter_cons, List.filter_cons]
        simp [hpt, ih4]
        omega
      · intro r hr
        rcases List.mem_cons.mp hr with h | h
        · subst h
          exact ⟨(fun hfalse => nomatch hfalse), fun _ => ⟨rfl, rfl⟩⟩
        · exact ih5 r h
    | error e =>
      have hpt : (isErr (client t.prompt)) = true := by rw [hct]; rfl
      rw [executeParallel_cons, hct]
      refine ⟨by simp [ih1], by simp [ih2], ?_, ?_, ?_⟩
      · rw [List.filter_cons, List.filter_cons]
        simp [hpt, ih3]
      · rw [List.filter_cons, List.filter_cons]
        simp [hpt, ih4]
      · intro r hr
        rcases List.mem_cons.mp hr with h | h
        · subst h
          exact ⟨fun _ => ⟨rfl, rfl⟩, (fun htrue => nomatch htrue)⟩
        · exact ih5 r h

/-- Closed instance of `executeParallel_outcome_counts`. -/
theorem executeParallel_outcome_counts_witness :
    (executeParallel demoClient demoSubtasks).length = demoSubtasks.length ∧
    (({ name := "s2", result := none, success := false, error := some "boom" } :
        SubtaskResult).result = none) := by
  obtain ⟨h1, _, _, _, h5⟩ := executeParallel_outcome_counts demoClient demoSubtasks
  have hmem : ({ name := "s2", result := none, success := false, error := some "boom" } :
      SubtaskResult) ∈ executeParallel demoClient demoSubtasks := by decide
  exact ⟨h1, ((h5 _ hmem).1 rfl).1⟩

/-- C4: with a succeeding primary task, `execute_with_guardrails` withholds
the primary result (`result = None`, `blocked = true`) when at least one
guardrail fails, reporting the failing check names in `blocking_guardrails`,
and surfaces it (`result = Some`, `blocked = false`) when all checks pass. -/
theorem executeWithGuardrails_withholds_on_failure :
    ∀ (main : String) (grs : List (Except String String)),
      ∃ res, executeWithGuardrails (.ok main) grs = .ok res ∧
        res.blocking_guardrails =
          (res.guardrail_results.filter fun g => !g.passed).map (·.name) ∧
        ((∃ g ∈ res.guardrail_results, g.passed = false) →
          res.result = none ∧ res.blocked = true) ∧
        ((∀ g ∈ res.guardrail_results, g.passed = true) →
          res.result = some main ∧ res.blocked = false) := by
  intro main grs
  refine ⟨_, rfl, rfl, ?_, ?_⟩
  · rintro ⟨g, hg, hgf⟩
    have hall : ((grs.enum.map fun p => guardrailOutcome p.1 p.2).all (·.passed)) = false := by
      rw [Bool.eq_false_iff]
      intro htrue
      have := List.all_eq_true.mp htrue g hg
      simp [hgf] at this
    constructor <;> simp [hall]
  · intro hforall
    have hall : ((grs.enum.map fun p => guardrailOutcome p.1 p.2).all (·.passed)) = true :=
      List.all_eq_true.mpr (by intro g hg; simpa using hforall g hg)
    constructor <;> simp [hall]

/-- Closed instance of `executeWithGuardrails_withholds_on_failure`. -/
theorem executeWithGuardrails_withholds_on_failure_witness :
    ∃ res, executeWithGuardrails (.ok "out") [.ok "FAIL"] = .ok res ∧
      res.result = none ∧ res.blocked = true := by
  obtain ⟨res, heq, _, hfail, _⟩ := executeWithGuardrails_withholds_on_failure "out" [.ok "FAIL"]
  have hres : res = ⟨none, true, [⟨"guardrail_0", false⟩], ["guardrail_0"]⟩ := by
    have hcomp : executeWithGuardrails (.ok "out") [.ok "FAIL"] =
        .ok ⟨none, true, [⟨"guardrail_0", false⟩], ["guardrail_0"]⟩ := by rfl
    rw [hcomp] at heq
    exact (Except.ok.injEq _ _).mp heq.symm |>.symm ▸ rfl
  subst hres
  exact ⟨_, heq, hfail ⟨⟨"guardrail_0", false⟩, by decide, rfl⟩⟩

end Parallelization

end AgentPatterns

namespace AgentPatterns

namespace EvaluatorOptimizer

/-- The scan underlying `rustMaxBy` picks an element dominating everything
before it weakly and everything after it strictly (the LAST maximum). -/
theorem foldl_pick_spec {α : Type} (f : α → ℚ) (xs : List α) (x : α) :
    ∃ l₁ l₂, x :: xs = l₁ ++ (xs.foldl (fun best y => if f y < f best then best else y) x) :: l₂ ∧
      (∀ z ∈ l₁, f z ≤ f (xs.foldl (fun best y => if f y < f best then best else y) x)) ∧
      (∀ z ∈ l₂, f z < f (xs.foldl (fun best y => if f y < f best then best else y) x)) := by
  induction xs using List.reverseRecOn with
  | nil =>
    exact ⟨[], [], rfl, by simp, by simp⟩
  | append_singleton xs y ih =>
    obtain ⟨l₁, l₂, hsplit, hle, hlt⟩ := ih
    rw [List.foldl_append, List.foldl_cons, List.foldl_nil]
    set b := xs.foldl (fun best y => if f y < f best then best else y) x with hb
    by_cases hy : f y < f b
    · refine ⟨l₁, l₂ ++ [y], ?_, by simpa [hy] using hle, ?_⟩
      · rw [if_pos hy, ← List.cons_append, hsplit]
        simp
      · rw [if_pos hy]
        intro z hz
        rcases List.mem_append.mp hz with h | h
        · exact hlt z h
        · rw [List.mem_singleton.mp h]; exact hy
    · refine ⟨x :: xs, [], ?_, ?_, by simp [hy]⟩
      · rw [if_neg hy, ← List.cons_append, hsplit]
      · rw [if_neg hy]
        intro z hz
        have hby : f b ≤ f y := not_lt.mp hy
        rw [hsplit] at hz
        rcases List.mem_append.mp hz with h | h
        · exact le_trans (hle z h) hby
        · rcases List.mem_cons.mp h with h' | h'
          · exact h' ▸ hby
          · exact le_trans (le_of_lt (hlt z h')) hby

/-- `Iterator::max_by` decomposition: the returned element is the LAST
maximum — weakly above everything before it, strictly above everything
after it. -/
theorem rustMaxBy_spec {α : Type} (f : α → ℚ) (l : List α) (b : α)
    (h : rustMaxBy f l = some b) :
    ∃ l₁ l₂, l = l₁ ++ b :: l₂ ∧ (∀ x ∈ l₁, f x ≤ f b) ∧ (∀ x ∈ l₂, f x < f b) := by
  cases l with
  | nil => exact absurd h (by simp [rustMaxBy])
  | cons x xs =>
    obtain ⟨l₁, l₂, hsplit, hle, hlt⟩ := foldl_pick_spec f xs x
    have hb : xs.foldl (fun best y => if f y < f best then best else y) x = b :=
      Option.some.inj (by simpa [rustMaxBy] using h)
    rw [hb] at hsplit hle hlt
    exact ⟨l₁, l₂, hsplit, hle, hlt⟩

/-- When `optimizeGo` returns without meeting the threshold, it has consumed
the whole budget and returned the `max_by` record of the final history. -/
theorem optimizeGo_exhausted_spec (gen : String → String → Option EvaluationResult →
      Except String String) (evalF : String → Except String EvaluationResult)
    (task : String) (θ : ℚ) (N : Nat) :
    ∀ (rem i : Nat) (cur : String) (le : Option EvaluationResult)
      (hist : List IterationRecord) (r : OptimizationResult),
      optimizeGo gen evalF task θ N rem i cur le hist = .ok r →
      r.met_threshold = false →
      r.iterations = N ∧
      ∃ best, rustMaxBy (fun rec => rec.evaluation.overall_score) r.history = some best ∧
        r.final_output = best.output ∧ r.final_score = best.evaluation.overall_score := by
  intro rem
  induction rem with
  | zero =>
    intro i cur le hist r hok hmet
    rw [optimizeGo] at hok
    simp only [if_pos rfl] at hok
    cases hbest : rustMaxBy (fun rec => rec.evaluation.overall_score) hist with
    | none => rw [hbest] at hok; exact absurd hok (by simp)
    | some best =>
      rw [hbest] at hok
      cases hok
      exact ⟨rfl, best, hbest, rfl, rfl⟩
  | succ n ih =>
    intro i cur le hist r hok hmet
    rw [optimizeGo, dif_neg (Nat.succ_ne_zero n)] at hok
    simp only [Nat.add_sub_cancel] at hok
    cases hgen : gen task cur le with
    | error e => rw [hgen] at hok; simp at hok
    | ok output =>
      rw [hgen] at hok
      dsimp only at hok
      cases heval : evalF output with
      | error e => rw [heval] at hok; simp at hok
      | ok evaluation =>
        rw [heval] at hok
        dsimp only at hok
        by_cases hth : θ ≤ evaluation.overall_score
        · rw [if_pos hth] at hok
          cases hok
          exact absurd hmet (by simp)
        · rw [if_neg hth] at hok
          exact ih (i + 1) output (some evaluation) _ r hok hmet

/-- When `optimizeGo` returns with the threshold met, the final history ends
with the first threshold-meeting record and every earlier record is below
the threshold. -/
theorem optimizeGo_met_spec (gen : String → String → Option EvaluationResult →
      Except String String) (evalF : String → Except String EvaluationResult)
    (task : String) (θ : ℚ) (N : Nat) :
    ∀ (rem i : Nat) (cur : String) (le : Option EvaluationResult)
      (hist : List IterationRecord) (r : OptimizationResult),
      (∀ rec ∈ hist, rec.evaluation.overall_score < θ) →
      hist.length = i →
      optimizeGo gen evalF task θ N rem i cur le hist = .ok r →
      r.met_threshold = true →
      r.iterations = r.history.length ∧
      ∃ pre last, r.history = pre ++ [last] ∧ θ ≤ last.evaluation.overall_score ∧
        r.final_output = last.output ∧ r.final_score = last.evaluation.overall_score ∧
        last.iteration = r.iterations ∧
        ∀ rec ∈ pre, rec.evaluation.overall_score < θ := by
  intro rem
  induction rem with
  | zero =>
    intro i cur le hist r _hbelow _hlen hok hmet
    rw [optimizeGo] at hok
    simp only [if_pos rfl] at hok
    cases hbest : rustMaxBy (fun rec => rec.evaluation.overall_score) hist with
    | none => rw [hbest] at hok; exact absurd hok (by simp)
    | some best =>
      rw [hbest] at hok
      cases hok
      exact absurd hmet (by simp)
  | succ n ih =>
    intro i cur le hist r hbelow hlen hok hmet
    rw [optimizeGo, dif_neg (Nat.succ_ne_zero n)] at hok
    simp only [Nat.add_sub_cancel] at hok
    cases hgen : gen task cur le with
    | error e => rw [hgen] at hok; simp at hok
    | ok output =>
      rw [hgen] at hok
      dsimp only at hok
      cases heval : evalF output with
      | error e => rw [heval] at hok; simp at hok
      | ok evaluation =>
        rw [heval] at hok
        dsimp only at hok
        by_cases hth : θ ≤ evaluation.overall_score
        · rw [if_pos hth] at hok
          cases hok
          refine ⟨by simp [hlen], hist, ⟨i + 1, output, evaluation⟩, rfl, hth, rfl, rfl, ?_, hbelow⟩
          simp [hlen]
        · rw [if_neg hth] at hok
          refine ih (i + 1) output (some evaluation) _ r ?_ ?_ hok hmet
          · intro rec hrec
            rcases List.mem_append.mp hrec with h | h
            · exact hbelow rec h
            · rw [List.mem_singleton.mp h]
              exact not_le.mp hth
          · simp [hlen]

/-- `optimizeGo` panics exactly when it reaches budget exhaustion with an
empty history. -/
theorem optimizeGo_ne_panicked (gen : String → String → Option EvaluationResult →
      Except String String) (evalF : String → Except String EvaluationResult)
    (task : String) (θ : ℚ) (N : Nat) :
    ∀ (rem i : Nat) (cur : String) (le : Option EvaluationResult)
      (hist : List IterationRecord), (hist ≠ [] ∨ rem ≠ 0) →
      optimizeGo gen evalF task θ N rem i cur le hist ≠ .error .panicked := by
  intro rem
  induction rem with
  | zero =>
    intro i cur le hist hne
    rw [optimizeGo]
    simp only [if_pos rfl]
    rcases hne with hne | hne
    · cases hist with
      | nil => exact absurd rfl hne
      | cons x xs => simp [rustMaxBy]
    · exact absurd rfl hne
  | succ n ih =>
    intro i cur le hist _hne
    rw [optimizeGo, dif_neg (Nat.succ_ne_zero n)]
    simp only [Nat.add_sub_cancel]
    cases hgen : gen task cur le with
    | error e => simp
    | ok output =>
      dsimp only
      cases heval : evalF output with
      | error e => simp
      | ok evaluation =>
        dsimp only
        by_cases hth : θ ≤ evaluation.overall_score
        · rw [if_pos hth]; simp
        · rw [if_neg hth]
          exact ih (i + 1) output (some evaluation) _ (Or.inl (by simp))

/-- C10: `EvaluatorOptimizer::optimize` with `max_iterations = 0` runs no
iterations, leaves the history empty, and panics unwrapping the maximum of
the empty history; with `max_iterations ≥ 1` the unwrap never panics. -/
theorem optimize_zero_iterations_panics :
    (∀ (gen : String → String → Option EvaluationResult → Except String String)
       (evalF : String → Except String EvaluationResult) (task : String) (θ : ℚ),
       optimize gen evalF task 0 θ = .error .panicked) ∧
    (∀ (gen : String → String → Option EvaluationResult → Except String String)
       (evalF : String → Except String EvaluationResult) (task : String) (n : Nat) (θ : ℚ),
       1 ≤ n → optimize gen evalF task n θ ≠ .error .panicked) := by
  constructor
  · intro gen evalF task θ
    rw [optimize, optimizeGo]
    simp [rustMaxBy]
  · intro gen evalF task n θ hn
    exact optimizeGo_ne_panicked gen evalF task θ n n 0 "" none [] (Or.inr (by omega))

/-- Closed instance of `optimize_zero_iterations_panics`. -/
theorem optimize_zero_iterations_panics_witness :
    optimize exGen exEval "t" 0 (1/2) = .error .panicked ∧
    optimize exGen exEval "t" 1 (1/2) ≠ .error .panicked :=
  ⟨optimize_zero_iterations_panics.1 exGen exEval "t" (1/2),
   optimize_zero_iterations_panics.2 exGen exEval "t" 1 (1/2) (le_refl 1)⟩

/-- C8: `optimize` terminates at the first iteration whose overall score
meets the caller-supplied threshold, returning that iteration's output and
score with `met_threshold = true` and the iteration count equal to that
iteration's 1-based index; concretely, deterministic scores
`[0.5, 0.7, 0.9]` with threshold `0.85` and budget `5` stop after exactly 3
iterations with `met_threshold = true` and `final_score = 0.9`. -/
theorem optimize_stops_at_first_threshold :
    (∀ (gen : String → String → Option EvaluationResult → Except String String)
       (evalF : String → Except String EvaluationResult) (task : String) (n : Nat) (θ : ℚ)
       (r : OptimizationResult),
       optimize gen evalF task n θ = .ok r → r.met_threshold = true →
       r.iterations = r.history.length ∧
       ∃ pre last, r.history = pre ++ [last] ∧ θ ≤ last.evaluation.overall_score ∧
         r.final_output = last.output ∧ r.final_score = last.evaluation.overall_score ∧
         last.iteration = r.iterations ∧
         ∀ rec ∈ pre, rec.evaluation.overall_score < θ) ∧
    optimize exGen exEval "t" 5 (17/20) = .ok exRun := by
  constructor
  · intro gen evalF task n θ r hok hmet
    exact optimizeGo_met_spec gen evalF task θ n n 0 "" none [] r (by simp) rfl hok hmet
  · have h1 : ¬((17:ℚ)/20 ≤ 1/2) := by norm_num
    have h2 : ¬((17:ℚ)/20 ≤ 7/10) := by norm_num
    have h3 : ((17:ℚ)/20 ≤ 9/10) := by norm_num
    simp [optimize, optimizeGo, exGen, exEval, exRun, h1, h2, h3]
    norm_num

/-- Closed instance of `optimize_stops_at_first_threshold`. -/
theorem optimize_stops_at_first_threshold_witness :
    exRun.iterations = exRun.history.length ∧
    ∃ pre last, exRun.history = pre ++ [last] ∧ (17:ℚ)/20 ≤ last.evaluation.overall_score ∧
      exRun.final_output = last.output ∧ exRun.final_score = last.evaluation.overall_score ∧
      last.iteration = exRun.iterations ∧
      ∀ rec ∈ pre, rec.evaluation.overall_score < (17:ℚ)/20 :=
  optimize_stops_at_first_threshold.1 exGen exEval "t" 5 (17/20) exRun
    optimize_stops_at_first_threshold.2 rfl

/-- C2 counterexample: with two equally scoring iterations (outputs "A" then
"B", both 0.5, threshold 1, budget 2) the returned output is "B", the LATEST
maximal iteration, not the earliest one ("A") that the claim requires. -/
theorem optimize_tie_earliest_counterexample :
    optimize tieGen tieEval "t" 2 1 = .ok tieRun ∧
    tieRun.history.map (fun rec => rec.evaluation.overall_score) = [1/2, 1/2] ∧
    (tieRun.history.map (·.output)) = ["A", "B"] ∧
    tieRun.final_output = "B" ∧ tieRun.final_output ≠ "A" := by
  have h1 : ¬((1:ℚ) ≤ 1/2) := by norm_num
  refine ⟨?_, by simp [tieRun], by simp [tieRun], rfl, by simp [tieRun]⟩
  simp [optimize, optimizeGo, tieGen, tieEval, rustMaxBy, tieRun, h1]
  norm_num

/-- C2 amended: when no iteration's score reaches the threshold, `optimize`
returns `met_threshold = false`, the full budget as the iteration count, and
the output and score of the iteration with the highest overall score, with
ties broken in favor of the LATEST such iteration (everything after the
returned record scores strictly lower, everything before at most equal). -/
theorem optimize_budget_exhausted_returns_latest_best :
    ∀ (gen : String → String → Option EvaluationResult → Except String String)
      (evalF : String → Except String EvaluationResult) (task : String) (n : Nat) (θ : ℚ)
      (r : OptimizationResult),
      optimize gen evalF task n θ = .ok r →
      (∀ rec ∈ r.history, rec.evaluation.overall_score < θ) →
      r.met_threshold = false ∧ r.iterations = n ∧
      ∃ l₁ best l₂, r.history = l₁ ++ best :: l₂ ∧
        r.final_output = best.output ∧ r.final_score = best.evaluation.overall_score ∧
        (∀ rec ∈ l₁, rec.evaluation.overall_score ≤ best.evaluation.overall_score) ∧
        (∀ rec ∈ l₂, rec.evaluation.overall_score < best.evaluation.overall_score) := by
  intro gen evalF task n θ r hok hbelow
  have hmet : r.met_threshold = false := by
    by_contra hmet
    have hmet' : r.met_threshold = true := by
      cases h : r.met_threshold
      · exact absurd h hmet
      · rfl
    obtain ⟨_, pre, last, hsplit, hth, _, _, _, _⟩ :=
      optimizeGo_met_spec gen evalF task θ n n 0 "" none [] r (by simp) rfl hok hmet'
    have hlast : last ∈ r.history := by
      rw [hsplit]
      simp
    exact absurd hth (not_le.mpr (hbelow last hlast))
  obtain ⟨hiter, best, hbest, hout, hscore⟩ :=
    optimizeGo_exhausted_spec gen evalF task θ n n 0 "" none [] r hok hmet
  obtain ⟨l₁, l₂, hsplit, hle, hlt⟩ :=
    rustMaxBy_spec (fun rec => rec.evaluation.overall_score) r.history best hbest
  exact ⟨hmet, hiter, l₁, best, l₂, hsplit, hout, hscore, hle, hlt⟩

/-- Closed instance of `optimize_budget_exhausted_returns_latest_best`. -/
theorem optimize_budget_exhausted_returns_latest_best_witness :
    tieRun.met_threshold = false ∧ tieRun.iterations = 2 ∧
    ∃ l₁ best l₂, tieRun.history = l₁ ++ best :: l₂ ∧
      tieRun.final_output = best.output ∧
      tieRun.final_score = best.evaluation.overall_score ∧
      (∀ rec ∈ l₁, rec.evaluation.overall_score ≤ best.evaluation.overall_score) ∧
      (∀ rec ∈ l₂, rec.evaluation.overall_score < best.evaluation.overall_score) := by
  have hrun : optimize tieGen tieEval "t" 2 1 = .ok tieRun := by
    have h1 : ¬((1:ℚ) ≤ 1/2) := by norm_num
    simp [optimize, optimizeGo, tieGen, tieEval, rustMaxBy, tieRun, h1]
    norm_num
  refine optimize_budget_exhausted_returns_latest_best tieGen tieEval "t" 2 1 tieRun hrun ?_
  intro rec hrec
  simp only [tieRun, List.mem_cons, List.not_mem_nil, or_false] at hrec
  have : rec.evaluation.overall_score = 1/2 := by
    rcases hrec with h | h <;> rw [h]
  rw [this]
  norm_num

end EvaluatorOptimizer

end AgentPatterns

namespace AgentPatterns

namespace PromptChaining

/-- Every UTF-8 character occupies at least one byte. -/
theorem charUtf8Size_pos (c : Char) : 1 ≤ charUtf8Size c := by
  unfold charUtf8Size
  split_ifs <;> norm_num

/-- Slicing a char list at exactly its total byte length succeeds and keeps
the whole list. -/
theorem takeBytes_full : ∀ l : List Char, takeBytes l ((l.map charUtf8Size).sum) = some l := by
  intro l
  induction l with
  | nil => simp [takeBytes]
  | cons c cs ih =>
    have hpos := charUtf8Size_pos c
    simp only [takeBytes, List.map_cons, List.sum_cons]
    rw [if_neg (by omega)]
    rw [if_pos (by omega : charUtf8Size c ≤ charUtf8Size c + (cs.map charUtf8Size).sum)]
    rw [Nat.add_sub_cancel_left, ih]
    rfl

/-- Outputs of at most 100 bytes always slice cleanly (to themselves). -/
theorem slicePreview_of_le (s : String) (h : byteLen s ≤ 100) : slicePreview s = some s := by
  unfold slicePreview
  rw [min_eq_left h]
  have hb : byteLen s = ((s.data.map charUtf8Size)).sum := rfl
  rw [hb, takeBytes_full]
  rfl

set_option maxRecDepth 10000 in
/-- C9: the validation-failure preview slices the output at byte index
`min(len, 100)`; any output of at most 100 bytes slices cleanly, but an
output in which a multi-byte character straddles byte 100 (such as 99 `a`s
followed by `é`, 101 bytes) makes the slice panic, so the validation error
path of `PromptChain::execute` is not total: on that output the run panics
instead of returning the validation error. -/
theorem chain_preview_slice_panics :
    (∀ s : String, byteLen s ≤ 100 → slicePreview s = some s) ∧
    100 < byteLen cxOutput ∧ slicePreview cxOutput = none ∧
    (execute cxClient [alwaysFalseStep] fun _ => none).outcome = .error .panicked := by
  refine ⟨slicePreview_of_le, by decide, rfl, rfl⟩

set_option maxRecDepth 10000 in
/-- Closed instance of `chain_preview_slice_panics`. -/
theorem chain_preview_slice_panics_witness : slicePreview "abc" = some "abc" :=
  chain_preview_slice_panics.1 "abc" (by decide)

set_option maxRecDepth 10000 in
/-- C5 counterexample: a step whose validator rejects a 101-byte output whose
byte-100 cut is inside a character makes `execute` panic, an outcome that
names no step — not the promised validation error naming the step. -/
theorem chain_validation_panic_counterexample :
    (execute cxClient [alwaysFalseStep] fun _ => none).outcome = .error .panicked ∧
    outcomeStepName (execute cxClient [alwaysFalseStep] fun _ => none) = none :=
  ⟨rfl, rfl⟩

/-- C5 amended: a completion-client error at a step ends the chain at once
with an error naming that step and no retry; a validator returning `false`
on a step's output ends the chain at once — no later prompt is built and no
later completion call is made — with the validation error naming that step
whenever the byte-100 truncation of the output lands on a character boundary
(in particular whenever the output is at most 100 bytes), and with a panic
otherwise. -/
theorem chain_failfast :
    ∀ (client : String → Except String String) (step : ChainStep) (rest : List ChainStep)
      (ctx : String → Option String) (cur : String) (history : List ChainHistory)
      (calls : List (String × String)),
      (∀ e, client (step.prompt_template ctx) = .error e →
        executeGo client (step :: rest) ctx cur history calls =
          ⟨.error (.clientError step.name e), history,
            calls ++ [(step.name, step.prompt_template ctx)]⟩) ∧
      (∀ output validator, client (step.prompt_template ctx) = .ok output →
        step.validator = some validator → validator output = false →
        (executeGo client (step :: rest) ctx cur history calls).calls =
          calls ++ [(step.name, step.prompt_template ctx)] ∧
        (executeGo client (step :: rest) ctx cur history calls).history = history ∧
        (∀ preview, slicePreview output = some preview →
          (executeGo client (step :: rest) ctx cur history calls).outcome =
            .error (.validationFailed step.name preview)) ∧
        (slicePreview output = none →
          (executeGo client (step :: rest) ctx cur history calls).outcome =
            .error .panicked)) := by
  intro client step rest ctx cur history calls
  constructor
  · intro e he
    simp [executeGo, he]
  · intro output validator hok hval hfalse
    have hrun : executeGo client (step :: rest) ctx cur history calls =
        match slicePreview output with
        | some preview =>
            ⟨.error (.validationFailed step.name preview), history,
              calls ++ [(step.name, step.prompt_template ctx)]⟩
        | none => ⟨.error .panicked, history, calls ++ [(step.name, step.prompt_template ctx)]⟩ := by
      simp [executeGo, hok, hval, hfalse]
    cases hsp : slicePreview output with
    | some preview =>
      rw [hsp] at hrun
      rw [hrun]
      refine ⟨rfl, rfl, ?_, ?_⟩
      · intro pv hpv
        injection hpv with h
        subst h
        rfl
      · intro hnone
        exact Option.noConfusion hnone
    | none =>
      rw [hsp] at hrun
      rw [hrun]
      refine ⟨rfl, rfl, ?_, fun _ => rfl⟩
      intro pv hpv
      exact Option.noConfusion hpv

set_option maxRecDepth 10000 in
/-- Closed instance of `chain_failfast`. -/
theorem chain_failfast_witness :
    executeGo errClient [alwaysFalseStep, nextStep] (fun _ => none) "" [] [] =
      ⟨.error (.clientError "s1" "down"), [], [("s1", "p1")]⟩ ∧
    (executeGo cxClient [alwaysFalseStep, nextStep] (fun _ => none) "" [] []).calls =
      [("s1", "p1")] ∧
    (executeGo cxClient [alwaysFalseStep, nextStep] (fun _ => none) "" [] []).outcome =
      .error .panicked := by
  refine ⟨?_, ?_, ?_⟩
  · exact (chain_failfast errClient alwaysFalseStep [nextStep] (fun _ => none) "" [] []).1
      "down" rfl
  · exact ((chain_failfast cxClient alwaysFalseStep [nextStep] (fun _ => none) "" [] []).2
      cxOutput (fun _ => false) rfl rfl rfl).1
  · exact ((chain_failfast cxClient alwaysFalseStep [nextStep] (fun _ => none) "" [] []).2
      cxOutput (fun _ => false) rfl rfl rfl).2.2.2 rfl

end PromptChaining

end AgentPatterns

namespace AgentPatterns

namespace AutonomousAgent

/-- A loop entered with the completion flag set returns at once. -/
theorem runGo_complete (tools : List AgentTool) (client : Nat → Except String LLMResponse)
    (shouldStop : AgentState → Bool) :
    ∀ (rem : Nat) (st : AgentState) (conv : List Message) (calls : Nat),
      st.is_complete = true →
      runGo tools client shouldStop rem st conv calls = .ok st := by
  intro rem st conv calls h
  cases rem with
  | zero => rfl
  | succ n => simp [runGo, h]

/-- One unfolding of the loop body on an incomplete state whose stop
predicate declines and whose completion call succeeds. -/
theorem runGo_succ_step (tools : List AgentTool) (client : Nat → Except String LLMResponse)
    (shouldStop : AgentState → Bool) (n : Nat) (st : AgentState) (conv : List Message)
    (calls : Nat) (resp : LLMResponse)
    (hst : st.is_complete = false)
    (hstop : shouldStop { st with total_steps := st.total_steps + 1 } = false)
    (hcl : client calls = .ok resp) :
    runGo tools client shouldStop (n + 1) st conv calls =
      runGo tools client shouldStop n
        (processResponse tools { st with total_steps := st.total_steps + 1 } conv resp).1
        (processResponse tools { st with total_steps := st.total_steps + 1 } conv resp).2
        (calls + 1) := by
  simp only [runGo]
  rw [if_neg (by simp [hst]), if_neg (by simp [hstop]), hcl]

/-- Processing a `complete` action ends the run with the declared result
(touching only the history besides the flag and result slots). -/
theorem processResponse_complete (tools : List AgentTool) (st : AgentState)
    (conv : List Message) (raw : String) (a : AgentAction) (r : String)
    (hact : a.action = some "complete") (hres : a.result = some r) :
    ∃ hist, (processResponse tools st conv (.action raw a)).1 =
      ⟨st.total_steps, st.tool_calls, hist, true, some r⟩ := by
  cases hth : a.thought with
  | none =>
    refine ⟨st.action_history, ?_⟩
    simp [processResponse, hth, hact, hres, Option.orElse]
  | some t =>
    refine ⟨st.action_history ++ [⟨st.total_steps, "thought", none, none, none, some t⟩], ?_⟩
    simp [processResponse, hth, hact, hres, Option.orElse]

/-- Processing a non-`complete` response never sets the completion flag nor
the final result. -/
theorem processResponse_not_complete (tools : List AgentTool) (st : AgentState)
    (conv : List Message) (resp : LLMResponse)
    (hst : st.is_complete = false) (hfr : st.final_result = none)
    (hresp : ¬ IsCompleteResp resp) :
    (processResponse tools st conv resp).1.is_complete = false ∧
    (processResponse tools st conv resp).1.final_result = none := by
  cases resp with
  | text raw => exact ⟨hst, hfr⟩
  | action raw a =>
    have hact : ¬ a.action = some "complete" := hresp
    rcases hao : a.action with _ | action_name
    · rw [hao] at hact
      cases hth : a.thought <;> simp [processResponse, hth, hao, hact, hst, hfr]
    · rw [hao] at hact
      rcases htf : toolsFind tools action_name with _ | tool <;>
        cases hth : a.thought <;>
          simp [processResponse, hth, hao, htf, hact, hst, hfr]

/-- A loop fed only successful, non-`complete` responses ends with the flag
still clear and no final result. -/
theorem runGo_no_complete (tools : List AgentTool) (client : Nat → Except String LLMResponse) :
    ∀ (rem : Nat) (st : AgentState) (conv : List Message) (calls : Nat),
      st.is_complete = false → st.final_result = none →
      (∀ j, j < rem → ∃ resp, client (calls + j) = .ok resp ∧ ¬ IsCompleteResp resp) →
      ∃ st', runGo tools client (fun _ => false) rem st conv calls = .ok st' ∧
        st'.is_complete = false ∧ st'.final_result = none := by
  intro rem
  induction rem with
  | zero =>
    intro st conv calls hst hfr _hresp
    exact ⟨st, rfl, hst, hfr⟩
  | succ n ih =>
    intro st conv calls hst hfr hresp
    obtain ⟨resp, hcl, hncomp⟩ := hresp 0 (by omega)
    rw [Nat.add_zero] at hcl
    rw [runGo_succ_step tools client _ n st conv calls resp hst rfl hcl]
    obtain ⟨hpc, hpf⟩ := processResponse_not_complete tools
      { st with total_steps := st.total_steps + 1 } conv resp hst hfr hncomp
    exact ih _ _ (calls + 1) hpc hpf (by
      intro j hj
      obtain ⟨resp', hcl', hncomp'⟩ := hresp (j + 1) (by omega)
      refine ⟨resp', ?_, hncomp'⟩
      have harith : calls + 1 + j = calls + (j + 1) := by omega
      rw [harith]
      exact hcl')

/-- C6: if the first completion response parses to an action with
`action = "complete"` and `result = "done"`, `run` ends with `success =
true`, `total_steps = 1`, `tool_calls = 0` and `final_result = "done"`; if
every in-budget response is a successful non-`complete` one, the step budget
is exhausted and the run reports `success = false` with the text
`Task not completed within step limit`. -/
theorem agent_complete_and_budget :
    (∀ (tools : List AgentTool) (client : Nat → Except String LLMResponse) (task : String)
       (maxSteps : Nat) (raw : String) (a : AgentAction),
       1 ≤ maxSteps →
       client 0 = .ok (.action raw a) →
       a.action = some "complete" → a.result = some "done" →
       ∃ hist, run tools client task maxSteps =
         .ok { success := true, final_result := "done", total_steps := 1, tool_calls := 0,
               action_history := hist }) ∧
    (∀ (tools : List AgentTool) (client : Nat → Except String LLMResponse) (task : String)
       (maxSteps : Nat),
       (∀ k, k < maxSteps → ∃ resp, client k = .ok resp ∧ ¬ IsCompleteResp resp) →
       ∃ r, run tools client task maxSteps = .ok r ∧ r.success = false ∧
         r.final_result = "Task not completed within step limit") := by
  constructor
  · intro tools client task maxSteps raw a hms hclient hact hres
    obtain ⟨rem, rfl⟩ : ∃ rem, maxSteps = rem + 1 := ⟨maxSteps - 1, by omega⟩
    obtain ⟨hist, hproc⟩ := processResponse_complete tools
      { initState with total_steps := initState.total_steps + 1 }
      [⟨"user", "Task: " ++ task⟩] raw a "done" hact hres
    refine ⟨hist, ?_⟩
    unfold run run_with_stop
    rw [runGo_succ_step tools client _ rem initState [⟨"user", "Task: " ++ task⟩] 0
      (.action raw a) rfl rfl hclient]
    rw [hproc]
    rw [runGo_complete tools client _ rem _ _ (0 + 1) rfl]
    rfl
  · intro tools client task maxSteps hresp
    obtain ⟨st', hrun, hst', hfr'⟩ := runGo_no_complete tools client maxSteps initState
      [⟨"user", "Task: " ++ task⟩] 0 rfl rfl (by
        intro j hj
        obtain ⟨resp, hcl, hn⟩ := hresp j hj
        refine ⟨resp, ?_, hn⟩
        rw [Nat.zero_add]
        exact hcl)
    have heq : run tools client task maxSteps = .ok
        { success := st'.is_complete
          final_result := st'.final_result.getD "Task not completed within step limit"
          total_steps := st'.total_steps
          tool_calls := st'.tool_calls
          action_history := st'.action_history } := by
      unfold run run_with_stop
      rw [hrun]
    refine ⟨_, heq, hst', ?_⟩
    show st'.final_result.getD "Task not completed within step limit" = _
    rw [hfr']
    rfl

/-- Closed instance of `agent_complete_and_budget`. -/
theorem agent_complete_and_budget_witness :
    (∃ hist, run [] doneClient "go" 3 =
      .ok { success := true, final_result := "done", total_steps := 1, tool_calls := 0,
            action_history := hist }) ∧
    (∃ r, run [] chatterClient "go" 2 = .ok r ∧ r.success = false ∧
      r.final_result = "Task not completed within step limit") :=
  ⟨agent_complete_and_budget.1 [] doneClient "go" 3 "raw"
      ⟨none, some "complete", none, some "done"⟩ (by omega) rfl rfl rfl,
   agent_complete_and_budget.2 [] chatterClient "go" 2
      (fun _k _hk => ⟨.text "hi", rfl, not_false⟩)⟩

end AutonomousAgent

end AgentPatterns


namespace AgentPatterns

namespace OrchestratorWorkers

/-- A successful `task_map` lookup returns a member of the list whose id is
the looked-up id. -/
theorem taskMapFind_spec {subtasks : List Subtask} {id : String} {s : Subtask}
    (h : taskMapFind subtasks id = some s) : s ∈ subtasks ∧ s.id = id := by
  unfold taskMapFind at h
  have hmem : s ∈ subtasks.reverse := List.mem_of_find?_eq_some h
  have hpred := List.find?_some h
  exact ⟨List.mem_reverse.mp hmem, by simpa using hpred⟩

/-- The `task_map` has a binding for an id iff some subtask carries it. -/
theorem taskMapFind_isSome {subtasks : List Subtask} {d : String} :
    (taskMapFind subtasks d).isSome ↔ ∃ t ∈ subtasks, t.id = d := by
  unfold taskMapFind
  rw [List.find?_isSome]
  constructor
  · rintro ⟨t, ht, hp⟩
    exact ⟨t, List.mem_reverse.mp ht, by simpa using hp⟩
  · rintro ⟨t, ht, hp⟩
    exact ⟨t, List.mem_reverse.mpr ht, by simpa using hp⟩

/-- `visit` on an already-visited id. -/
theorem visit_succ_visited {tm : String → Option Subtask} {n : Nat} {id : String}
    {st : VisitState} (hv : id ∈ st.visited) :
    visit tm (n + 1) id st = .ok st := by
  rw [visit, if_pos hv]

/-- `visit` on an id currently being visited: the circular-dependency bail. -/
theorem visit_succ_visiting {tm : String → Option Subtask} {n : Nat} {id : String}
    {st : VisitState} (hv : id ∉ st.visited) (hg : id ∈ st.visiting) :
    visit tm (n + 1) id st = .error (.circular id) := by
  rw [visit, if_neg hv, if_pos hg]

/-- `visit` on a fresh id outside the task map: mark and return. -/
theorem visit_succ_none {tm : String → Option Subtask} {n : Nat} {id : String}
    {st : VisitState} (hv : id ∉ st.visited) (hg : id ∉ st.visiting)
    (htm : tm id = none) :
    visit tm (n + 1) id st =
      .ok { st with visited := id :: st.visited, visiting := (id :: st.visiting).erase id } := by
  rw [visit, if_neg hv, if_neg hg]
  simp [htm]

/-- `visit` on a fresh mapped id whose dependency loop fails. -/
theorem visit_succ_some_err {tm : String → Option Subtask} {n : Nat} {id : String}
    {st : VisitState} {s : Subtask} {e : SortError}
    (hv : id ∉ st.visited) (hg : id ∉ st.visiting) (htm : tm id = some s)
    (hvd : visitDeps (visit tm n) s.dependencies { st with visiting := id :: st.visiting } =
      .error e) :
    visit tm (n + 1) id st = .error e := by
  rw [visit, if_neg hv, if_neg hg]
  simp [htm, hvd]

/-- `visit` on a fresh mapped id whose dependency loop succeeds: push the
subtask and mark the id visited. -/
theorem visit_succ_some_ok {tm : String → Option Subtask} {n : Nat} {id : String}
    {st : VisitState} {s : Subtask} {st2 : VisitState}
    (hv : id ∉ st.visited) (hg : id ∉ st.visiting) (htm : tm id = some s)
    (hvd : visitDeps (visit tm n) s.dependencies { st with visiting := id :: st.visiting } =
      .ok st2) :
    visit tm (n + 1) id st =
      .ok { visited := id :: st2.visited, visiting := st2.visiting.erase id,
            result := st2.result ++ [s] } := by
  rw [visit, if_neg hv, if_neg hg]
  simp [htm, hvd]

/-- A successful dependency loop leaves `visiting` unchanged, provided each
single visit does. -/
theorem visitDeps_ok_visiting {f : String → VisitState → Except SortError VisitState}
    (hf : ∀ d st st', f d st = .ok st' → st'.visiting = st.visiting) :
    ∀ (ds : List String) (st st' : VisitState),
      visitDeps f ds st = .ok st' → st'.visiting = st.visiting := by
  intro ds
  induction ds with
  | nil =>
    intro st st' h
    cases h
    rfl
  | cons d ds ih =>
    intro st st' h
    rw [visitDeps] at h
    cases hd : f d st with
    | error e => rw [hd] at h; cases h
    | ok st1 =>
      rw [hd] at h
      rw [ih st1 st' h, hf d st st1 hd]

/-- A successful `visit` leaves `visiting` unchanged. -/
theorem visit_ok_visiting (tm : String → Option Subtask) :
    ∀ (fuel : Nat) (id : String) (st st' : VisitState),
      visit tm fuel id st = .ok st' → st'.visiting = st.visiting := by
  intro fuel
  induction fuel with
  | zero => intro id st st' h; cases h
  | succ n ih =>
    intro id st st' h
    by_cases hv : id ∈ st.visited
    · rw [visit_succ_visited hv] at h
      cases h
      rfl
    · by_cases hg : id ∈ st.visiting
      · rw [visit_succ_visiting hv hg] at h
        cases h
      · cases htm : tm id with
        | none =>
          rw [visit_succ_none hv hg htm] at h
          cases h
          exact List.erase_cons_head id st.visiting
        | some s =>
          cases hvd : visitDeps (visit tm n) s.dependencies
              { st with visiting := id :: st.visiting } with
          | error e =>
            rw [visit_succ_some_err hv hg htm hvd] at h
            cases h
          | ok st2 =>
            rw [visit_succ_some_ok hv hg htm hvd] at h
            cases h
            have h2 : st2.visiting = id :: st.visiting :=
              visitDeps_ok_visiting (ih) s.dependencies _ st2 hvd
            show st2.visiting.erase id = st.visiting
            rw [h2]
            exact List.erase_cons_head id st.visiting

/-- A successful dependency loop grows `visited` monotonically and marks
every listed id visited, provided each single visit does. -/
theorem visitDeps_visited {f : String → VisitState → Except SortError VisitState}
    (hf : ∀ d st st', f d st = .ok st' → st.visited ⊆ st'.visited ∧ d ∈ st'.visited) :
    ∀ (ds : List String) (st st' : VisitState),
      visitDeps f ds st = .ok st' →
      st.visited ⊆ st'.visited ∧ ∀ d ∈ ds, d ∈ st'.visited := by
  intro ds
  induction ds with
  | nil =>
    intro st st' h
    cases h
    exact ⟨fun _ hx => hx, by intro d hd; exact absurd hd (List.not_mem_nil d)⟩
  | cons d ds ih =>
    intro st st' h
    rw [visitDeps] at h
    cases hd : f d st with
    | error e => rw [hd] at h; cases h
    | ok st1 =>
      rw [hd] at h
      obtain ⟨hmono1, hdmem⟩ := hf d st st1 hd
      obtain ⟨hmono2, hall⟩ := ih st1 st' h
      refine ⟨fun x hx => hmono2 (hmono1 hx), ?_⟩
      intro d' hd'
      rcases List.mem_cons.mp hd' with h' | h'
      · exact h' ▸ hmono2 hdmem
      · exact hall d' h'

/-- A successful `visit` grows `visited` monotonically and marks the visited
id. -/
theorem visit_visited (tm : String → Option Subtask) :
    ∀ (fuel : Nat) (id : String) (st st' : VisitState),
      visit tm fuel id st = .ok st' → st.visited ⊆ st'.visited ∧ id ∈ st'.visited := by
  intro fuel
  induction fuel with
  | zero => intro id st st' h; cases h
  | succ n ih =>
    intro id st st' h
    by_cases hv : id ∈ st.visited
    · rw [visit_succ_visited hv] at h
      cases h
      exact ⟨fun _ hx => hx, hv⟩
    · by_cases hg : id ∈ st.visiting
      · rw [visit_succ_visiting hv hg] at h
        cases h
      · cases htm : tm id with
        | none =>
          rw [visit_succ_none hv hg htm] at h
          cases h
          exact ⟨fun x hx => List.mem_cons_of_mem id hx, List.mem_cons_self id _⟩
        | some s =>
          cases hvd : visitDeps (visit tm n) s.dependencies
              { st with visiting := id :: st.visiting } with
          | error e =>
            rw [visit_succ_some_err hv hg htm hvd] at h
            cases h
          | ok st2 =>
            rw [visit_succ_some_ok hv hg htm hvd] at h
            cases h
            obtain ⟨hmono, _⟩ := visitDeps_visited (ih) s.dependencies _ st2 hvd
            exact ⟨fun x hx => List.mem_cons_of_mem id (hmono hx), List.mem_cons_self id _⟩

/-- Indexing the left part of an appended list. -/
theorem get_append_left {α : Type} :
    ∀ (l₁ l₂ : List α) (k : Nat) (hk : k < l₁.length) (h : k < (l₁ ++ l₂).length),
      (l₁ ++ l₂).get ⟨k, h⟩ = l₁.get ⟨k, hk⟩ := by
  intro l₁
  induction l₁ with
  | nil => intro l₂ k hk h; exact absurd hk (Nat.not_lt_zero k)
  | cons a l ih =>
    intro l₂ k hk h
    cases k with
    | zero => rfl
    | succ m => exact ih l₂ m (Nat.lt_of_succ_lt_succ hk) (Nat.lt_of_succ_lt_succ h)

/-- Indexing the appended singleton. -/
theorem get_append_last {α : Type} :
    ∀ (l : List α) (x : α) (h : l.length < (l ++ [x]).length),
      (l ++ [x]).get ⟨l.length, h⟩ = x := by
  intro l
  induction l with
  | nil => intro x h; rfl
  | cons a l ih => intro x h; exact ih x (Nat.lt_of_succ_lt_succ h)

/-- A successful dependency loop preserves the invariant, provided each
single visit does. -/
theorem visitDeps_inv {tm : String → Option Subtask}
    {f : String → VisitState → Except SortError VisitState}
    (hf : ∀ d st st', f d st = .ok st' → TMInv tm st → TMInv tm st') :
    ∀ (ds : List String) (st st' : VisitState),
      visitDeps f ds st = .ok st' → TMInv tm st → TMInv tm st' := by
  intro ds
  induction ds with
  | nil =>
    intro st st' h hinv
    cases h
    exact hinv
  | cons d ds ih =>
    intro st st' h hinv
    rw [visitDeps] at h
    cases hd : f d st with
    | error e => rw [hd] at h; cases h
    | ok st1 =>
      rw [hd] at h
      exact ih st1 st' h (hf d st st1 hd hinv)

/-- Pushing the mapped subtask for a fresh id after its dependencies are
visited preserves the invariant. -/
theorem TMInv_push {tm : String → Option Subtask}
    (htmid : ∀ id s, tm id = some s → s.id = id)
    {st2 : VisitState} {id : String} {s : Subtask}
    (hinv : TMInv tm st2) (htm : tm id = some s)
    (hdeps : ∀ d ∈ s.dependencies, d ∈ st2.visited) :
    TMInv tm ⟨id :: st2.visited, st2.visiting.erase id, st2.result ++ [s]⟩ := by
  obtain ⟨hmap, hvis, hord⟩ := hinv
  have hlen : (st2.result ++ [s]).length = st2.result.length + 1 := by simp
  unfold TMInv
  dsimp only
  simp only [hlen]
  refine ⟨?_, ?_, ?_⟩
  · intro t ht
    rcases List.mem_append.mp ht with h | h
    · exact hmap t h
    · rw [List.mem_singleton.mp h]
      rw [htmid id s htm]
      exact htm
  · intro id' hid' s' hs'
    rcases List.mem_cons.mp hid' with h | h
    · subst h
      have hss : s' = s := by
        rw [htm] at hs'
        exact (Option.some.inj hs').symm
      subst hss
      exact ⟨st2.result.length, by omega, get_append_last st2.result s' (by simp)⟩
    · obtain ⟨k, hk, hget⟩ := hvis id' h s' hs'
      exact ⟨k, by omega, by rw [get_append_left st2.result [s] k hk (by omega)]; exact hget⟩
  · intro k hk d hd hds
    have hk' : k < st2.result.length ∨ k = st2.result.length := by omega
    rcases hk' with hk' | hk'
    · rw [get_append_left st2.result [s] k hk' (by simp; omega)] at hd
      obtain ⟨j, hj, hjk, hid⟩ := hord k hk' d hd hds
      refine ⟨j, by omega, hjk, ?_⟩
      rw [get_append_left st2.result [s] j hj (by omega)]
      exact hid
    · subst hk'
      rw [get_append_last st2.result s (by simp)] at hd
      obtain ⟨s', hs'⟩ := Option.isSome_iff_exists.mp hds
      obtain ⟨j, hj, hget⟩ := hvis d (hdeps d hd) s' hs'
      refine ⟨j, by omega, by omega, ?_⟩
      rw [get_append_left st2.result [s] j hj (by omega), hget]
      exact htmid d s' hs'

/-- A successful `visit` preserves the invariant. -/
theorem visit_inv {tm : String → Option Subtask}
    (htmid : ∀ id s, tm id = some s → s.id = id) :
    ∀ (fuel : Nat) (id : String) (st st' : VisitState),
      visit tm fuel id st = .ok st' → TMInv tm st → TMInv tm st' := by
  intro fuel
  induction fuel with
  | zero => intro id st st' h; cases h
  | succ n ih =>
    intro id st st' h hinv
    by_cases hv : id ∈ st.visited
    · rw [visit_succ_visited hv] at h
      cases h
      exact hinv
    · by_cases hg : id ∈ st.visiting
      · rw [visit_succ_visiting hv hg] at h
        cases h
      · cases htm : tm id with
        | none =>
          rw [visit_succ_none hv hg htm] at h
          cases h
          obtain ⟨hmap, hvis, hord⟩ := hinv
          refine ⟨hmap, ?_, hord⟩
          intro id' hid' s' hs'
          rcases List.mem_cons.mp hid' with h' | h'
          · subst h'
            rw [htm] at hs'
            cases hs'
          · exact hvis id' h' s' hs'
        | some s =>
          cases hvd : visitDeps (visit tm n) s.dependencies
              { st with visiting := id :: st.visiting } with
          | error e =>
            rw [visit_succ_some_err hv hg htm hvd] at h
            cases h
          | ok st2 =>
            rw [visit_succ_some_ok hv hg htm hvd] at h
            cases h
            have hinv2 : TMInv tm st2 :=
              visitDeps_inv (ih) s.dependencies _ st2 hvd hinv
            have hdeps : ∀ d ∈ s.dependencies, d ∈ st2.visited :=
              (visitDeps_visited (visit_visited tm n) s.dependencies _ st2 hvd).2
            exact TMInv_push htmid hinv2 htm hdeps

/-- The dependency loop cannot raise an error of class `P` if no single
visit from a state with the same `visiting` set can. -/
theorem visitDeps_ne_err {f : String → VisitState → Except SortError VisitState}
    (V : List String) (P : SortError → Prop)
    (hrestore : ∀ d st st', f d st = .ok st' → st'.visiting = st.visiting) :
    ∀ (ds : List String) (st : VisitState), st.visiting = V →
      (∀ d ∈ ds, ∀ st₀ : VisitState, st₀.visiting = V → ∀ e, P e → f d st₀ ≠ .error e) →
      ∀ e, P e → visitDeps f ds st ≠ .error e := by
  intro ds
  induction ds with
  | nil =>
    intro st _hV _hall e _hPe hcontra
    cases hcontra
  | cons d ds ih =>
    intro st hV hall e hPe hcontra
    rw [visitDeps] at hcontra
    cases hd : f d st with
    | error e' =>
      rw [hd] at hcontra
      cases hcontra
      exact hall d (List.mem_cons_self d ds) st hV e hPe hd
    | ok st1 =>
      rw [hd] at hcontra
      have hV1 : st1.visiting = V := by rw [hrestore d st st1 hd, hV]
      exact ih st1 hV1 (fun d' hd' => hall d' (List.mem_cons_of_mem d hd')) e hPe hcontra

/-- With fuel exceeding the number of unmarked ids, `visit` never exhausts
its fuel: the Rust recursion, which carries no fuel, is modeled faithfully
at the fuel `topologicalSort` supplies. -/
theorem visit_ne_fuelExhausted (subtasks : List Subtask) :
    ∀ (fuel : Nat) (id : String) (st : VisitState),
      id ∈ idUniverse subtasks →
      (∀ v ∈ st.visiting, v ∈ idUniverse subtasks) →
      ((idUniverse subtasks).toFinset \ st.visiting.toFinset).card < fuel →
      visit (taskMapFind subtasks) fuel id st ≠ .error .fuelExhausted := by
  intro fuel
  induction fuel with
  | zero =>
    intro id st _ _ hcard
    exact absurd hcard (Nat.not_lt_zero _)
  | succ n ih =>
    intro id st hidU hvisU hcard hcontra
    by_cases hv : id ∈ st.visited
    · rw [visit_succ_visited hv] at hcontra
      cases hcontra
    · by_cases hg : id ∈ st.visiting
      · rw [visit_succ_visiting hv hg] at hcontra
        cases hcontra
      · cases htm : taskMapFind subtasks id with
        | none =>
          rw [visit_succ_none hv hg htm] at hcontra
          cases hcontra
        | some s =>
          cases hvd : visitDeps (visit (taskMapFind subtasks) n) s.dependencies
              { st with visiting := id :: st.visiting } with
          | ok st2 =>
            rw [visit_succ_some_ok hv hg htm hvd] at hcontra
            cases hcontra
          | error e =>
            rw [visit_succ_some_err hv hg htm hvd] at hcontra
            cases hcontra
            refine visitDeps_ne_err (id :: st.visiting) (· = SortError.fuelExhausted)
              (visit_ok_visiting (taskMapFind subtasks) n) s.dependencies
              { st with visiting := id :: st.visiting } rfl ?_ .fuelExhausted rfl hvd
            intro d hd st₀ hst₀ e' he'
            subst he'
            have hsub : s ∈ subtasks := (taskMapFind_spec htm).1
            have hdU : d ∈ idUniverse subtasks := by
              unfold idUniverse
              refine List.mem_append.mpr (Or.inr ?_)
              exact List.mem_flatten.mpr ⟨s.dependencies, List.mem_map_of_mem _ hsub, hd⟩
            have hvisU0 : ∀ v ∈ st₀.visiting, v ∈ idUniverse subtasks := by
              rw [hst₀]
              intro v hvmem
              rcases List.mem_cons.mp hvmem with h' | h'
              · exact h' ▸ hidU
              · exact hvisU v h'
            have hmemdiff : id ∈ (idUniverse subtasks).toFinset \ st.visiting.toFinset :=
              Finset.mem_sdiff.mpr ⟨List.mem_toFinset.mpr hidU,
                fun hc => hg (List.mem_toFinset.mp hc)⟩
            have hone : 1 ≤ ((idUniverse subtasks).toFinset \ st.visiting.toFinset).card :=
              Finset.card_pos.mpr ⟨id, hmemdiff⟩
            have hcard0 :
                ((idUniverse subtasks).toFinset \ st₀.visiting.toFinset).card < n := by
              rw [hst₀, List.toFinset_cons, Finset.sdiff_insert,
                Finset.card_erase_of_mem hmemdiff]
              omega
            exact ih d st₀ hdU hvisU0 hcard0

/-- Under a rank function that strictly decreases along dependency edges of
the task map (an acyclicity certificate), `visit` never raises the
circular-dependency error. -/
theorem visit_ne_circular (subtasks : List Subtask) (rk : String → Nat)
    (hrk : ∀ a s, taskMapFind subtasks a = some s → ∀ d ∈ s.dependencies, rk d < rk a) :
    ∀ (fuel : Nat) (id : String) (st : VisitState),
      (∀ v ∈ st.visiting, rk id < rk v) →
      ∀ c, visit (taskMapFind subtasks) fuel id st ≠ .error (.circular c) := by
  intro fuel
  induction fuel with
  | zero =>
    intro id st _ c hcontra
    cases hcontra
  | succ n ih =>
    intro id st hrank c hcontra
    by_cases hv : id ∈ st.visited
    · rw [visit_succ_visited hv] at hcontra
      cases hcontra
    · by_cases hg : id ∈ st.visiting
      · exact absurd (hrank id hg) (lt_irrefl (rk id))
      · cases htm : taskMapFind subtasks id with
        | none =>
          rw [visit_succ_none hv hg htm] at hcontra
          cases hcontra
        | some s =>
          cases hvd : visitDeps (visit (taskMapFind subtasks) n) s.dependencies
              { st with visiting := id :: st.visiting } with
          | ok st2 =>
            rw [visit_succ_some_ok hv hg htm hvd] at hcontra
            cases hcontra
          | error e =>
            rw [visit_succ_some_err hv hg htm hvd] at hcontra
            cases hcontra
            refine visitDeps_ne_err (id :: st.visiting)
              (fun e => ∃ c', e = SortError.circular c')
              (visit_ok_visiting (taskMapFind subtasks) n) s.dependencies
              { st with visiting := id :: st.visiting } rfl ?_ (.circular c) ⟨c, rfl⟩ hvd
            rintro d hd st₀ hst₀ e' ⟨c', he'⟩
            subst he'
            refine ih d st₀ ?_ c'
            rw [hst₀]
            intro v hvmem
            rcases List.mem_cons.mp hvmem with h' | h'
            · exact h' ▸ hrk id s htm d hd
            · exact lt_trans (hrk id s htm d hd) (hrank v h')

/-- `idxOf` of a member is within bounds. -/
theorem idxOf_lt_length {a : String} : ∀ {l : List String}, a ∈ l → idxOf l a < l.length := by
  intro l
  induction l with
  | nil => intro h; exact absurd h (List.not_mem_nil a)
  | cons x xs ih =>
    intro h
    by_cases hx : x = a
    · simp [idxOf, hx]
    · rw [idxOf, if_neg hx]
      have : a ∈ xs := by
        rcases List.mem_cons.mp h with h' | h'
        · exact absurd h'.symm hx
        · exact h'
      exact Nat.succ_lt_succ (ih this)

/-- The element at `idxOf` is the id itself. -/
theorem get_idxOf {a : String} :
    ∀ {l : List String} (_h : a ∈ l) (hlt : idxOf l a < l.length), l.get ⟨idxOf l a, hlt⟩ = a := by
  intro l
  induction l with
  | nil => intro h; exact absurd h (List.not_mem_nil a)
  | cons x xs ih =>
    intro h hlt
    by_cases hx : x = a
    · simp only [idxOf, if_pos hx]
      exact hx
    · have hmem : a ∈ xs := by
        rcases List.mem_cons.mp h with h' | h'
        · exact absurd h'.symm hx
        · exact h'
      have hlt' : idxOf xs a < xs.length := idxOf_lt_length hmem
      simp only [idxOf, if_neg hx]
      exact ih hmem hlt'

/-- `idxOf` is minimal: it is at most any index holding the id. -/
theorem idxOf_le {a : String} :
    ∀ {l : List String} (j : Nat) (hj : j < l.length), l.get ⟨j, hj⟩ = a → idxOf l a ≤ j := by
  intro l
  induction l with
  | nil => intro j hj; exact absurd hj (Nat.not_lt_zero j)
  | cons x xs ih =>
    intro j hj hget
    by_cases hx : x = a
    · rw [idxOf, if_pos hx]
      exact Nat.zero_le j
    · rw [idxOf, if_neg hx]
      cases j with
      | zero => exact absurd hget hx
      | succ m => exact Nat.succ_le_succ (ih m (Nat.lt_of_succ_lt_succ hj) hget)

/-- Indexing a mapped id list. -/
theorem get_map_id :
    ∀ (sorted : List Subtask) (i : Nat) (h1 : i < (sorted.map (·.id)).length)
      (h2 : i < sorted.length),
      (sorted.map (·.id)).get ⟨i, h1⟩ = (sorted.get ⟨i, h2⟩).id := by
  intro sorted
  induction sorted with
  | nil => intro i h1; exact absurd h1 (by simp)
  | cons t ts ih =>
    intro i h1 h2
    cases i with
    | zero => rfl
    | succ m => exact ih m (Nat.lt_of_succ_lt_succ (by simpa using h1)) (Nat.lt_of_succ_lt_succ h2)

/-- The head of a dependency path is a task-map key. -/
theorem DepPath_head_isSome {subtasks : List Subtask} {a c : String}
    (h : DepPath subtasks a c) : (taskMapFind subtasks a).isSome := by
  cases h with
  | single h1 _ => rw [h1]; rfl
  | cons h1 _ _ => rw [h1]; rfl

/-- `topological_sort` never exhausts the fuel of this embedding. -/
theorem topologicalSort_ne_fuelExhausted (subtasks : List Subtask) :
    topologicalSort subtasks ≠ .error .fuelExhausted := by
  intro hcontra
  unfold topologicalSort at hcontra
  cases hvd : visitDeps (visit (taskMapFind subtasks) (sortFuel subtasks))
      (subtasks.map (·.id)) ⟨[], [], []⟩ with
  | ok st => rw [hvd] at hcontra; cases hcontra
  | error e =>
    rw [hvd] at hcontra
    cases hcontra
    refine visitDeps_ne_err [] (· = SortError.fuelExhausted)
      (visit_ok_visiting (taskMapFind subtasks) (sortFuel subtasks)) (subtasks.map (·.id))
      ⟨[], [], []⟩ rfl ?_ .fuelExhausted rfl hvd
    intro d hd st₀ hst₀ e' he'
    subst he'
    refine visit_ne_fuelExhausted subtasks (sortFuel subtasks) d st₀ ?_ ?_ ?_
    · unfold idUniverse
      exact List.mem_append.mpr (Or.inl hd)
    · rw [hst₀]
      intro v hv
      exact absurd hv (List.not_mem_nil v)
    · rw [hst₀]
      have h1 : ((idUniverse subtasks).toFinset \ ([] : List String).toFinset).card ≤
          (idUniverse subtasks).length := by
        simp only [List.toFinset_nil, Finset.sdiff_empty]
        exact List.toFinset_card_le _
      unfold sortFuel
      omega

/-- Soundness of a successful sort: every returned node is its id's map
value, every input subtask id is represented, and mapped dependencies come
strictly earlier. -/
theorem topologicalSort_ok_spec {subtasks sorted : List Subtask}
    (h : topologicalSort subtasks = .ok sorted) :
    (∀ t ∈ sorted, taskMapFind subtasks t.id = some t) ∧
    (∀ s ∈ subtasks, ∃ t ∈ sorted, t.id = s.id) ∧
    (∀ (k : Nat) (hk : k < sorted.length), ∀ d ∈ (sorted.get ⟨k, hk⟩).dependencies,
      (taskMapFind subtasks d).isSome →
      ∃ (j : Nat) (hj : j < sorted.length), j < k ∧ (sorted.get ⟨j, hj⟩).id = d) := by
  have htmid : ∀ id s, taskMapFind subtasks id = some s → s.id = id :=
    fun id s hs => (taskMapFind_spec hs).2
  unfold topologicalSort at h
  cases hvd : visitDeps (visit (taskMapFind subtasks) (sortFuel subtasks))
      (subtasks.map (·.id)) ⟨[], [], []⟩ with
  | error e => rw [hvd] at h; cases h
  | ok stF =>
    rw [hvd] at h
    cases h
    have hinv0 : TMInv (taskMapFind subtasks) ⟨[], [], []⟩ :=
      ⟨fun t ht => absurd ht (List.not_mem_nil t),
       fun id hid => absurd hid (List.not_mem_nil id),
       fun k hk => absurd hk (Nat.not_lt_zero k)⟩
    have hinvF : TMInv (taskMapFind subtasks) stF :=
      visitDeps_inv (visit_inv htmid (sortFuel subtasks)) _ _ stF hvd hinv0
    obtain ⟨hmap, hvis, hord⟩ := hinvF
    have hvisited : ∀ id ∈ subtasks.map (·.id), id ∈ stF.visited :=
      (visitDeps_visited (visit_visited (taskMapFind subtasks) (sortFuel subtasks))
        _ _ stF hvd).2
    refine ⟨hmap, ?_, hord⟩
    intro s hs
    have hsid : s.id ∈ stF.visited := hvisited s.id (List.mem_map_of_mem _ hs)
    have hsome : (taskMapFind subtasks s.id).isSome :=
      taskMapFind_isSome.mpr ⟨s, hs, rfl⟩
    obtain ⟨s', hs'⟩ := Option.isSome_iff_exists.mp hsome
    obtain ⟨k, hk, hget⟩ := hvis s.id hsid s' hs'
    refine ⟨stF.result.get ⟨k, hk⟩, List.get_mem stF.result k hk, ?_⟩
    rw [hget]
    exact htmid s.id s' hs'

/-- Completeness: a rank certificate of acyclicity makes the sort succeed. -/
theorem topologicalSort_ok_of_acyclic (subtasks : List Subtask) (rk : String → Nat)
    (hrk : ∀ s ∈ subtasks, ∀ d ∈ s.dependencies, rk d < rk s.id) :
    ∃ sorted, topologicalSort subtasks = .ok sorted := by
  have hrk' : ∀ a s, taskMapFind subtasks a = some s → ∀ d ∈ s.dependencies, rk d < rk a := by
    intro a s htm d hd
    obtain ⟨hmem, hid⟩ := taskMapFind_spec htm
    rw [← hid]
    exact hrk s hmem d hd
  cases hres : topologicalSort subtasks with
  | ok sorted => exact ⟨sorted, rfl⟩
  | error e =>
    exfalso
    cases e with
    | fuelExhausted => exact topologicalSort_ne_fuelExhausted subtasks hres
    | circular c =>
      unfold topologicalSort at hres
      cases hvd : visitDeps (visit (taskMapFind subtasks) (sortFuel subtasks))
          (subtasks.map (·.id)) ⟨[], [], []⟩ with
      | ok st => rw [hvd] at hres; cases hres
      | error e' =>
        rw [hvd] at hres
        cases hres
        refine visitDeps_ne_err [] (fun e => ∃ c', e = SortError.circular c')
          (visit_ok_visiting (taskMapFind subtasks) (sortFuel subtasks))
          (subtasks.map (·.id)) ⟨[], [], []⟩ rfl ?_ (.circular c) ⟨c, rfl⟩ hvd
        rintro d hd st₀ hst₀ e'' ⟨c', he''⟩
        subst he''
        refine visit_ne_circular subtasks rk hrk' (sortFuel subtasks) d st₀ ?_ c'
        rw [hst₀]
        intro v hv
        exact absurd hv (List.not_mem_nil v)

/-- A dependency cycle makes `topological_sort` fail with the circular
error. -/
theorem topologicalSort_cycle_err (subtasks : List Subtask)
    (hcyc : ∃ a, DepPath subtasks a a) :
    ∃ id, topologicalSort subtasks = .error (.circular id) := by
  cases hres : topologicalSort subtasks with
  | error e =>
    cases e with
    | circular id => exact ⟨id, rfl⟩
    | fuelExhausted => exact absurd hres (topologicalSort_ne_fuelExhausted subtasks)
  | ok sorted =>
    exfalso
    obtain ⟨hmap, hcompl, hord⟩ := topologicalSort_ok_spec hres
    obtain ⟨a, hpath⟩ := hcyc
    have hkey : ∀ b, (taskMapFind subtasks b).isSome → b ∈ sorted.map (·.id) := by
      intro b hb
      obtain ⟨t, ht, htid⟩ := taskMapFind_isSome.mp hb
      obtain ⟨t', ht', htid'⟩ := hcompl t ht
      exact List.mem_map.mpr ⟨t', ht', by rw [htid', htid]⟩
    have hedge : ∀ x sx d, taskMapFind subtasks x = some sx → d ∈ sx.dependencies →
        (taskMapFind subtasks d).isSome →
        idxOf (sorted.map (·.id)) d < idxOf (sorted.map (·.id)) x := by
      intro x sx d htm hd hdsome
      have hx : x ∈ sorted.map (·.id) := hkey x (by rw [htm]; rfl)
      have hlt : idxOf (sorted.map (·.id)) x < (sorted.map (·.id)).length := idxOf_lt_length hx
      have hklt : idxOf (sorted.map (·.id)) x < sorted.length := by
        simpa using hlt
      have hgetid : (sorted.get ⟨idxOf (sorted.map (·.id)) x, hklt⟩).id = x := by
        rw [← get_map_id sorted _ hlt hklt]
        exact get_idxOf hx hlt
      have hmapval := hmap (sorted.get ⟨idxOf (sorted.map (·.id)) x, hklt⟩)
        (List.get_mem sorted _ hklt)
      rw [hgetid, htm] at hmapval
      have hentry : sorted.get ⟨idxOf (sorted.map (·.id)) x, hklt⟩ = sx :=
        Option.some.inj hmapval.symm
      have hdin : d ∈ (sorted.get ⟨idxOf (sorted.map (·.id)) x, hklt⟩).dependencies := by
        rw [hentry]
        exact hd
      obtain ⟨j, hj, hjlt, hjid⟩ := hord _ hklt d hdin hdsome
      have hjd : (sorted.map (·.id)).get ⟨j, by simpa using hj⟩ = d := by
        rw [get_map_id sorted j (by simpa using hj) hj]
        exact hjid
      exact Nat.lt_of_le_of_lt (idxOf_le j (by simpa using hj) hjd) hjlt
    have hpath_lt : ∀ x y, DepPath subtasks x y → (taskMapFind subtasks y).isSome →
        idxOf (sorted.map (·.id)) y < idxOf (sorted.map (·.id)) x := by
      intro x y hp
      induction hp with
      | single h1 h2 => intro hy; exact hedge _ _ _ h1 h2 hy
      | @cons x' b y' sx h1 h2 hp' ih =>
        intro hy
        have hb : (taskMapFind subtasks b).isSome := DepPath_head_isSome hp'
        exact lt_trans (ih hy) (hedge _ _ _ h1 h2 hb)
    exact absurd (hpath_lt a a hpath (DepPath_head_isSome hpath))
      (lt_irrefl (idxOf (sorted.map (·.id)) a))

/-- A dependency path extends by one edge at its far end. -/
theorem DepPath_snoc {subtasks : List Subtask} {x y z : String}
    (hp : DepPath subtasks x y) (he : DepEdge subtasks y z) : DepPath subtasks x z := by
  induction hp with
  | single h1 h2 =>
    obtain ⟨s, hs, hmem⟩ := he
    exact DepPath.cons h1 h2 (DepPath.single hs hmem)
  | cons h1 h2 _ ih => exact DepPath.cons h1 h2 (ih he)

/-- Every member of a chain-shaped stack reaches the stack's head by a
dependency path (or is the head itself). -/
theorem chainStack_to_head {subtasks : List Subtask} {a : String} {l : List String}
    (hcs : ChainStack subtasks (a :: l)) :
    ∀ id ∈ a :: l, id = a ∨ DepPath subtasks id a := by
  induction l generalizing a with
  | nil =>
    intro id hid
    rcases List.mem_cons.mp hid with h | h
    · exact Or.inl h
    · exact absurd h (List.not_mem_nil id)
  | cons b rest ih =>
    cases hcs with
    | cons hedge hcs' =>
      intro id hid
      rcases List.mem_cons.mp hid with h | h
      · exact Or.inl h
      · rcases ih hcs' id h with heq | hpath
        · subst heq
          obtain ⟨s, hs, hmem⟩ := hedge
          exact Or.inr (DepPath.single hs hmem)
        · exact Or.inr (DepPath_snoc hpath hedge)

/-- If a `visit` call whose pending stack is chain-shaped reports a circular
dependency, the graph really has a dependency cycle. -/
theorem visit_circular_cycle (subtasks : List Subtask) :
    ∀ (fuel : Nat) (id : String) (st : VisitState) (c : String),
      ChainStack subtasks (id :: st.visiting) →
      visit (taskMapFind subtasks) fuel id st = .error (.circular c) →
      ∃ a, DepPath subtasks a a := by
  intro fuel
  induction fuel with
  | zero => intro id st c _ h; cases h
  | succ n ih =>
    intro id st c hchain hcontra
    by_cases hv : id ∈ st.visited
    · rw [visit_succ_visited hv] at hcontra
      cases hcontra
    · by_cases hg : id ∈ st.visiting
      · cases hstv : st.visiting with
        | nil => rw [hstv] at hg; exact absurd hg (List.not_mem_nil id)
        | cons hd rest =>
          rw [hstv] at hchain hg
          cases hchain with
          | cons hedge hchain' =>
            rcases chainStack_to_head hchain' id hg with heq | hpath
            · subst heq
              obtain ⟨s, hs, hmem⟩ := hedge
              exact ⟨id, DepPath.single hs hmem⟩
            · exact ⟨id, DepPath_snoc hpath hedge⟩
      · cases htm : taskMapFind subtasks id with
        | none =>
          rw [visit_succ_none hv hg htm] at hcontra
          cases hcontra
        | some s =>
          cases hvd : visitDeps (visit (taskMapFind subtasks) n) s.dependencies
              { st with visiting := id :: st.visiting } with
          | ok st2 =>
            rw [visit_succ_some_ok hv hg htm hvd] at hcontra
            cases hcontra
          | error e =>
            rw [visit_succ_some_err hv hg htm hvd] at hcontra
            injection hcontra with he
            subst he
            by_contra hno
            refine visitDeps_ne_err (id :: st.visiting)
              (fun e' => ∃ c', e' = SortError.circular c')
              (visit_ok_visiting (taskMapFind subtasks) n)
              s.dependencies { st with visiting := id :: st.visiting } rfl ?_
              (.circular c) ⟨c, rfl⟩ hvd
            rintro d hd st₀ hst₀ e' ⟨c', he'⟩ hcontra'
            subst he'
            refine hno (ih d st₀ c' ?_ hcontra')
            rw [hst₀]
            exact ChainStack.cons ⟨s, htm, hd⟩ hchain

/-- Completeness: a dependency graph with no cycle always sorts. -/
theorem topologicalSort_ok_of_no_cycle (subtasks : List Subtask)
    (hacyc : ¬∃ a, DepPath subtasks a a) :
    ∃ sorted, topologicalSort subtasks = .ok sorted := by
  cases hres : topologicalSort subtasks with
  | ok sorted => exact ⟨sorted, rfl⟩
  | error e =>
    exfalso
    cases e with
    | fuelExhausted => exact topologicalSort_ne_fuelExhausted subtasks hres
    | circular c =>
      unfold topologicalSort at hres
      cases hvd : visitDeps (visit (taskMapFind subtasks) (sortFuel subtasks))
          (subtasks.map (·.id)) ⟨[], [], []⟩ with
      | ok st => rw [hvd] at hres; cases hres
      | error e' =>
        rw [hvd] at hres
        cases hres
        refine visitDeps_ne_err [] (fun e => ∃ c', e = SortError.circular c')
          (visit_ok_visiting (taskMapFind subtasks) (sortFuel subtasks))
          (subtasks.map (·.id)) ⟨[], [], []⟩ rfl ?_ (.circular c) ⟨c, rfl⟩ hvd
        rintro d hd st₀ hst₀ e'' ⟨c', he''⟩ hcontra
        subst he''
        refine hacyc (visit_circular_cycle subtasks (sortFuel subtasks) d st₀ c' ?_ hcontra)
        rw [hst₀]
        exact ChainStack.single d

/-- A rank function decreasing along every declared dependency bounds every
dependency path. -/
theorem DepPath_rank_lt {subtasks : List Subtask} (rk : String → Nat)
    (hrk : ∀ s ∈ subtasks, ∀ d ∈ s.dependencies, rk d < rk s.id) {a b : String}
    (hp : DepPath subtasks a b) : rk b < rk a := by
  have hrk' : ∀ x s, taskMapFind subtasks x = some s → ∀ d ∈ s.dependencies, rk d < rk x := by
    intro x s htm d hd
    obtain ⟨hmem, hid⟩ := taskMapFind_spec htm
    rw [← hid]
    exact hrk s hmem d hd
  induction hp with
  | single h1 h2 => exact hrk' _ _ h1 _ h2
  | cons h1 h2 _ ih => exact lt_trans ih (hrk' _ _ h1 _ h2)

/-- A rank certificate shows the dependency graph acyclic. -/
theorem acyclic_of_rank (subtasks : List Subtask) (rk : String → Nat)
    (hrk : ∀ s ∈ subtasks, ∀ d ∈ s.dependencies, rk d < rk s.id) :
    ¬∃ a, DepPath subtasks a a := by
  rintro ⟨a, hp⟩
  exact lt_irrefl (rk a) (DepPath_rank_lt rk hrk hp)

/-- The worker loop invokes exactly the listed subtasks, in list order. -/
theorem runWorkers_log (workerRun : Subtask → List (String × String) → Except String String) :
    ∀ (sorted : List Subtask) (results : List (String × String)) (acc : List WorkerResult)
      (log : List String),
      (runWorkers workerRun sorted results acc log).2.2 = log ++ sorted.map (·.id) := by
  intro sorted
  induction sorted with
  | nil => intro results acc log; simp [runWorkers]
  | cons subtask rest ih =>
    intro results acc log
    rw [runWorkers]
    cases hw : workerRun subtask (subtask.dependencies.filterMap fun d =>
        (lookupResult results d).map fun r => (d, r)) with
    | ok result =>
      rw [ih]
      simp
    | error e =>
      rw [ih]
      simp

/-- When the sort succeeds, `execute` invokes exactly the sorted subtasks in
sorted order, whatever the synthesis call returns. -/
theorem executeSubtasks_sort_ok {subtasks sorted : List Subtask}
    (workerRun : Subtask → List (String × String) → Except String String)
    (synth : String → List (String × String) → Except String String) (task : String)
    (h : topologicalSort subtasks = .ok sorted) :
    (executeSubtasks workerRun synth task subtasks).2 = sorted.map (·.id) := by
  unfold executeSubtasks
  rw [h]
  dsimp only
  have hlog := runWorkers_log workerRun sorted [] [] []
  cases hs : synth task (runWorkers workerRun sorted [] [] []).1 with
  | error e => simpa using hlog
  | ok final => simpa using hlog

/-- When the sort fails, `execute` aborts with the sort error and an empty
worker log. -/
theorem executeSubtasks_sort_err {subtasks : List Subtask}
    (workerRun : Subtask → List (String × String) → Except String String)
    (synth : String → List (String × String) → Except String String) (task : String)
    {e : SortError} (h : topologicalSort subtasks = .error e) :
    executeSubtasks workerRun synth task subtasks = (.error (.sortFailed e), []) := by
  unfold executeSubtasks
  rw [h]

/-- C1: for every subtask list whose dependency graph is well-formed (every
dependency id is some listed subtask's id) and acyclic (no dependency path
returns to its start), the orchestrator's execution invokes the workers in
the topologically sorted order, an order that covers every listed subtask id
and places every node strictly after all of its declared dependencies; and
for every subtask list whose graph has a cycle, `Orchestrator::execute`
returns a circular-dependency error naming an offending id with no worker
ever invoked. -/
theorem orchestrator_order_and_cycle_abort
    (workerRun : Subtask → List (String × String) → Except String String)
    (synth : String → List (String × String) → Except String String)
    (task : String) (subtasks : List Subtask) :
    (WellFormed subtasks → ¬(∃ a, DepPath subtasks a a) →
      ∃ sorted, topologicalSort subtasks = .ok sorted ∧
        (executeSubtasks workerRun synth task subtasks).2 = sorted.map (·.id) ∧
        (∀ s ∈ subtasks, ∃ t ∈ sorted, t.id = s.id) ∧
        DepOrdered sorted) ∧
    ((∃ a, DepPath subtasks a a) →
      ∃ id, executeSubtasks workerRun synth task subtasks =
        (.error (.sortFailed (.circular id)), [])) := by
  constructor
  · intro hwf hacyc
    obtain ⟨sorted, hok⟩ := topologicalSort_ok_of_no_cycle subtasks hacyc
    obtain ⟨hmap, hcompl, hord⟩ := topologicalSort_ok_spec hok
    refine ⟨sorted, hok, executeSubtasks_sort_ok workerRun synth task hok, hcompl, ?_⟩
    unfold DepOrdered
    intro i hi d hd
    have hmem : sorted.get ⟨i, hi⟩ ∈ subtasks :=
      (taskMapFind_spec (hmap _ (List.get_mem sorted i hi))).1
    have hsome : (taskMapFind subtasks d).isSome := by
      obtain ⟨t, ht, htid⟩ := hwf _ hmem d hd
      exact taskMapFind_isSome.mpr ⟨t, ht, htid⟩
    exact hord i hi d hd hsome
  · intro hcyc
    obtain ⟨id, herr⟩ := topologicalSort_cycle_err subtasks hcyc
    exact ⟨id, executeSubtasks_sort_err workerRun synth task herr⟩

/-- Witness for C1: the acyclic two-node input `demoA` sorts, is executed in
dependency order over all its ids, and the cyclic input `demoC` aborts with a
circular error and an empty worker log. -/
theorem orchestrator_order_and_cycle_abort_witness :
    (∃ sorted, topologicalSort demoA = .ok sorted ∧
      (executeSubtasks demoWorker demoSynth "t" demoA).2 = sorted.map (·.id) ∧
      (∀ s ∈ demoA, ∃ t ∈ sorted, t.id = s.id) ∧ DepOrdered sorted) ∧
    (∃ id, executeSubtasks demoWorker demoSynth "t" demoC =
      (.error (.sortFailed (.circular id)), [])) := by
  constructor
  · exact (orchestrator_order_and_cycle_abort demoWorker demoSynth "t" demoA).1
      (by unfold WellFormed; decide)
      (acyclic_of_rank demoA demoRank (by decide))
  · exact (orchestrator_order_and_cycle_abort demoWorker demoSynth "t" demoC).2
      ⟨"x", DepPath.cons (b := "y") (s := ⟨"x", "one", "w", ["y"]⟩) rfl (by decide)
        (DepPath.single (s := ⟨"y", "two", "w", ["x"]⟩) rfl (by decide))⟩

end OrchestratorWorkers

end AgentPatterns
